import Mathlib

/-!
# Verification of the memsim page-replacement simulators

Shallow embedding of the replacement-policy engines of the repository:

* `memsim.py` — `LRUSim` (OrderedDict-based LRU with dirty bits) and
  `ClockSim` (second-chance CLOCK with reference and dirty bits);
* `prac2/memsim.py` — `simulate_lru` (timestamp-minimum LRU) and
  `simulate_clock` (CLOCK without dirty bits), both over a `Stats` record;
* `prac2/memsim_backup.py` — the FIFO variant.

Python dictionaries are embedded as insertion-ordered association lists,
Python lists as Lean lists with explicit index access; an uncaught Python
exception (IndexError, KeyError, ValueError from `min` of an empty sequence,
ZeroDivisionError) is modelled as `none` / `Except.error`.
-/

namespace Memsim

/-- Access operation: `'R'` or `'W'` in the Python sources. -/
inductive Op where
  | R
  | W
deriving DecidableEq, Repr

/-- `PAGE_SIZE = 4096` from memsim.py. -/
def PAGE_SIZE : ℕ := 4096

/-! ## Association-list and list-index helpers

These embed Python dict operations (insertion-ordered) and list indexing. -/

/-- Dict lookup: value of the first entry with the given key. -/
def lookupKey {κ α : Type} [DecidableEq κ] (p : κ) : List (κ × α) → Option α
  | [] => none
  | (q, v) :: rest => if q = p then some v else lookupKey p rest

/-- Dict deletion: remove the first entry with the given key. -/
def eraseKey {κ α : Type} [DecidableEq κ] (p : κ) : List (κ × α) → List (κ × α)
  | [] => []
  | (q, v) :: rest => if q = p then rest else (q, v) :: eraseKey p rest

/-- Dict update on an existing key: replace the value in place. -/
def setVal {κ α : Type} [DecidableEq κ] (p : κ) (t : α) : List (κ × α) → List (κ × α)
  | [] => []
  | (q, v) :: rest => if q = p then (q, t) :: rest else (q, v) :: setVal p t rest

/-- Python `l[i]` as an option (IndexError ↦ `none`). -/
def nth {α : Type} : List α → ℕ → Option α
  | [], _ => none
  | a :: _, 0 => some a
  | _ :: l, n + 1 => nth l n

/-- Python `l[i] = a` (no-op out of bounds; all uses are in bounds). -/
def setN {α : Type} : List α → ℕ → α → List α
  | [], _, _ => []
  | _ :: l, 0, a => a :: l
  | b :: l, n + 1, a => b :: setN l n a

/-- Number of set (nonzero) reference bits in a bit array; the termination
measure of the second-chance scan. -/
def ones : List ℕ → ℕ
  | [] => 0
  | b :: l => (if b = 0 then 0 else 1) + ones l

/-! ## memsim.py — LRUSim -/

/-- State of `LRUSim`: `frames` is the OrderedDict `page ↦ Frame(page, dirty)`
embedded as an insertion-ordered association list (front = least recently
used, back = most recently used). -/
structure LRUSim where
  capacity : ℕ
  frames : List (ℕ × Bool)
  events : ℕ
  disk_reads : ℕ
  disk_writes : ℕ
deriving DecidableEq, Repr

/-- Fresh `LRUSim` with all counters zero (body of `LRUSim.__init__`). -/
def LRUSim.init (capacity : ℕ) : LRUSim :=
  { capacity := capacity, frames := [], events := 0, disk_reads := 0, disk_writes := 0 }

/-- `LRUSim.__init__`, including the `capacity <= 0` ValueError. The Python
constructor takes an `int`, hence the `ℤ` argument. -/
def LRUSim.mk' (capacity : ℤ) : Except String LRUSim :=
  if capacity ≤ 0 then .error "numframes must be positive"
  else .ok (LRUSim.init capacity.toNat)

/-- `LRUSim.access(op, addr)`. The hit path marks dirty on a write and does
`move_to_end` (erase + append, keeping the dirty bit); the miss path counts a
disk read, evicts the front entry when at capacity (counting a disk write if
it was dirty — `popitem(last=False)` on an empty dict, impossible for a
positive capacity, is `none`), then inserts the page at the back. -/
def LRUSim.access (s : LRUSim) (op : Op) (addr : ℕ) : Option LRUSim :=
  let page := addr / PAGE_SIZE
  let s := { s with events := s.events + 1 }
  match lookupKey page s.frames with
  | some d =>
      let d' := if op = Op.W then true else d
      some { s with frames := eraseKey page s.frames ++ [(page, d')] }
  | none =>
      let s := { s with disk_reads := s.disk_reads + 1 }
      if s.capacity ≤ s.frames.length then
        match s.frames with
        | [] => none
        | (_, ed) :: rest =>
            some { s with
              disk_writes := s.disk_writes + (if ed then 1 else 0),
              frames := rest ++ [(page, decide (op = Op.W))] }
      else
        some { s with frames := s.frames ++ [(page, decide (op = Op.W))] }

/-- Feed a list of parsed trace events to an `LRUSim`, one `access` at a time
(the loop body of `simulate`). -/
def LRUSim.runFrom (s : LRUSim) : List (Op × ℕ) → Option LRUSim
  | [] => some s
  | (op, a) :: tr =>
      match s.access op a with
      | none => none
      | some s' => s'.runFrom tr

/-! ## memsim.py — ClockSim -/

/-- State of `ClockSim`. `pages` uses the source's `-1` sentinel for an empty
slot, `refbit`/`dirty` are the parallel `0/1` integer arrays, `loc` is the
page → slot dict. Both the slot contents and the `loc` keys are the `ℤ`-cast
page numbers. -/
structure ClockSim where
  capacity : ℕ
  pages : List ℤ
  refbit : List ℕ
  dirty : List ℕ
  hand : ℕ
  loc : List (ℤ × ℕ)
  events : ℕ
  disk_reads : ℕ
  disk_writes : ℕ
deriving DecidableEq, Repr

/-- Fresh `ClockSim` (body of `ClockSim.__init__`). -/
def ClockSim.init (capacity : ℕ) : ClockSim :=
  { capacity := capacity
    pages := List.replicate capacity (-1)
    refbit := List.replicate capacity 0
    dirty := List.replicate capacity 0
    hand := 0
    loc := []
    events := 0
    disk_reads := 0
    disk_writes := 0 }

/-- `ClockSim.__init__` including the `capacity <= 0` ValueError. -/
def ClockSim.mk' (capacity : ℤ) : Except String ClockSim :=
  if capacity ≤ 0 then .error "numframes must be positive"
  else .ok (ClockSim.init capacity.toNat)

/-- The linear search for an empty slot:
`for i in range(capacity): if pages[i] == -1: empty_idx = i; break`,
returning the index of the first `-1` entry. -/
def findEmpty : List ℤ → Option ℕ
  | [] => none
  | a :: l => if a = -1 then some 0 else (findEmpty l).map (· + 1)

/-- The second-chance `while True` loop shared by both CLOCK implementations:
starting at `hand`, if the reference bit is 0 that slot is the victim,
otherwise clear it and advance `(hand + 1) % cap`. Runs on `fuel`; returns
`(refbit', victim, advances)`. `none` models both fuel exhaustion (the Python
loop not yet done) and an out-of-range index (Python IndexError). -/
def clockScan (cap : ℕ) : List ℕ → ℕ → ℕ → Option (List ℕ × ℕ × ℕ)
  | _, _, 0 => none
  | ref, hand, fuel + 1 =>
      match nth ref hand with
      | none => none
      | some b =>
          if b = 0 then some (ref, hand, 0)
          else
            match clockScan cap (setN ref hand 0) ((hand + 1) % cap) fuel with
            | none => none
            | some (r, v, n) => some (r, v, n + 1)

/-- `ClockSim.access(op, addr)`. Hit: set the slot's reference bit, and its
dirty bit on a write. Miss: count a disk read; place into the first empty
slot if any, otherwise run the second-chance scan (given fuel
`2 * capacity + 1`, enough for the bounded loop); if the victim slot held a
page, count a disk write when dirty and drop it from `loc`; install the new
page with reference bit 1 and dirty = (op = W), and set the hand to the slot
after the victim. -/
def ClockSim.access (s : ClockSim) (op : Op) (addr : ℕ) : Option ClockSim :=
  let page : ℤ := (addr / PAGE_SIZE : ℕ)
  let s := { s with events := s.events + 1 }
  match lookupKey page s.loc with
  | some idx =>
      some { s with
        refbit := setN s.refbit idx 1,
        dirty := if op = Op.W then setN s.dirty idx 1 else s.dirty }
  | none =>
      let s := { s with disk_reads := s.disk_reads + 1 }
      let scanned : Option (List ℕ × ℕ) :=
        match findEmpty s.pages with
        | some i => some (s.refbit, i)
        | none =>
            match clockScan s.capacity s.refbit s.hand (2 * s.capacity + 1) with
            | none => none
            | some (r, v, _) => some (r, v)
      match scanned with
      | none => none
      | some (ref1, victim) =>
          match nth s.pages victim, nth s.dirty victim with
          | some old, some dv =>
              let s :=
                if old = -1 then s
                else
                  { s with
                    disk_writes := s.disk_writes + (if dv ≠ 0 then 1 else 0),
                    loc := eraseKey old s.loc }
              some { s with
                pages := setN s.pages victim page,
                refbit := setN ref1 victim 1,
                dirty := setN s.dirty victim (if op = Op.W then 1 else 0),
                loc := s.loc ++ [(page, victim)],
                hand := (victim + 1) % s.capacity }
          | _, _ => none

/-- Feed a list of parsed trace events to a `ClockSim`. -/
def ClockSim.runFrom (s : ClockSim) : List (Op × ℕ) → Option ClockSim
  | [] => some s
  | (op, a) :: tr =>
      match s.access op a with
      | none => none
      | some s' => s'.runFrom tr

/-! ## memsim.py — the `simulate` runner

`simulate` normalizes the algorithm name, dispatches on it (an unknown name
is a NotImplementedError raised before the trace file is opened), and only
then feeds the parsed events to the chosen simulator. Trace-file reading and
line parsing are the excluded Trace Source; the model takes the already
parsed event list. -/

/-- Final counters as printed by `simulate`; the fault rate is exact (`ℚ`). -/
structure Report where
  numframes : ℤ
  events : ℕ
  disk_reads : ℕ
  disk_writes : ℕ
  page_fault_rate : ℚ
deriving DecidableEq, Repr

/-- `(sim.disk_reads / sim.events) if sim.events else 0.0`. -/
def faultRate (disk_reads events : ℕ) : ℚ :=
  if events ≠ 0 then (disk_reads : ℚ) / (events : ℚ) else 0

/-- `simulate(trace, numframes, algorithm, mode)` with the trace already
parsed into events and the algorithm name already normalized (lower-case,
stripped — the `.strip().lower()` of the source). `Except.error` carries the
message of the ValueError / NotImplementedError. -/
def simulate (numframes : ℤ) (algorithm : String) (trace : List (Op × ℕ)) :
    Except String Report :=
  if algorithm = "lru" then
    match LRUSim.mk' numframes with
    | .error e => .error e
    | .ok s0 =>
        match s0.runFrom trace with
        | none => .error "crash"
        | some s =>
            .ok { numframes := numframes, events := s.events,
                  disk_reads := s.disk_reads, disk_writes := s.disk_writes,
                  page_fault_rate := faultRate s.disk_reads s.events }
  else if algorithm = "clock" then
    match ClockSim.mk' numframes with
    | .error e => .error e
    | .ok s0 =>
        match s0.runFrom trace with
        | none => .error "crash"
        | some s =>
            .ok { numframes := numframes, events := s.events,
                  disk_reads := s.disk_reads, disk_writes := s.disk_writes,
                  page_fault_rate := faultRate s.disk_reads s.events }
  else .error "Supported algorithms: lru, clock"

end Memsim

namespace Prac2

open Memsim (Op lookupKey eraseKey setVal nth setN clockScan)

/-! ## prac2/memsim.py — `Stats`, `simulate_lru`, `simulate_clock` -/

/-- The `Stats` class. -/
structure Stats where
  references : ℕ
  hits : ℕ
  misses : ℕ
  evictions : ℕ
deriving DecidableEq, Repr

/-- `Stats.__init__`. -/
def Stats.init : Stats := ⟨0, 0, 0, 0⟩

/-- The fold inside Python's `min(items, key=lambda kv: kv[1])`: keep the
first item whose value is strictly minimal. -/
def pyMinVal : (ℕ × ℕ) → List (ℕ × ℕ) → (ℕ × ℕ)
  | acc, [] => acc
  | acc, kv :: rest => pyMinVal (if kv.2 < acc.2 then kv else acc) rest

/-- `min(last.items(), key=lambda kv: kv[1])`; `none` is the ValueError on an
empty dict. -/
def pyMin : List (ℕ × ℕ) → Option (ℕ × ℕ)
  | [] => none
  | x :: xs => some (pyMinVal x xs)

/-- The body of `simulate_lru`'s loop, recursing over the remaining pages.
`last` is the dict page ↦ last-use time (insertion-ordered), `t` the
`enumerate` index. A miss at capacity evicts the minimum-timestamp page. -/
def lruGo (frames : ℕ) : List (ℕ × ℕ) → Stats → ℕ → List ℕ →
    Option (List (ℕ × ℕ) × Stats)
  | last, st, _, [] => some (last, st)
  | last, st, t, pg :: rest =>
      let st := { st with references := st.references + 1 }
      if (lookupKey pg last).isSome then
        lruGo frames (setVal pg t last) { st with hits := st.hits + 1 } (t + 1) rest
      else
        let st := { st with misses := st.misses + 1 }
        if last.length < frames then
          lruGo frames (last ++ [(pg, t)]) st (t + 1) rest
        else
          match pyMin last with
          | none => none
          | some victim =>
              lruGo frames (eraseKey victim.1 last ++ [(pg, t)])
                { st with evictions := st.evictions + 1 } (t + 1) rest

/-- `simulate_lru(pages, frames)`. -/
def simulate_lru (pages : List ℕ) (frames : ℕ) : Option Stats :=
  (lruGo frames [] Stats.init 0 pages).map Prod.snd

/-- The hit search of `simulate_clock`:
`for i, val in enumerate(frame): if val == pg: ...` — index of the first slot
holding `pg`. -/
def findHit (pg : ℕ) : List (Option ℕ) → Option ℕ
  | [] => none
  | a :: l => if a = some pg then some 0 else (findHit pg l).map (· + 1)

/-- `next((i for i, v in enumerate(frame) if v is None), None)`. -/
def findNone : List (Option ℕ) → Option ℕ
  | [] => none
  | a :: l => if a = none then some 0 else (findNone l).map (· + 1)

/-- The body of `simulate_clock`'s loop. On a hit set the slot's reference
bit; on a miss fill the first empty slot (no hand movement), else run the
second-chance scan (shared loop shape with memsim.py, fuel
`2 * frames + 1`), install the page at the victim with reference bit 1,
count an eviction and advance the hand past the victim. -/
def clockGo (frames : ℕ) : List (Option ℕ) → List ℕ → ℕ → Stats → List ℕ →
    Option (List (Option ℕ) × List ℕ × ℕ × Stats)
  | frame, refbit, hand, st, [] => some (frame, refbit, hand, st)
  | frame, refbit, hand, st, pg :: rest =>
      let st := { st with references := st.references + 1 }
      match findHit pg frame with
      | some i =>
          clockGo frames frame (setN refbit i 1) hand
            { st with hits := st.hits + 1 } rest
      | none =>
          let st := { st with misses := st.misses + 1 }
          match findNone frame with
          | some i =>
              clockGo frames (setN frame i (some pg)) (setN refbit i 1) hand st rest
          | none =>
              match clockScan frames refbit hand (2 * frames + 1) with
              | none => none
              | some (ref1, victim, _) =>
                  clockGo frames (setN frame victim (some pg)) (setN ref1 victim 1)
                    ((victim + 1) % frames)
                    { st with evictions := st.evictions + 1 } rest

/-- `simulate_clock(pages, frames)`. -/
def simulate_clock (pages : List ℕ) (frames : ℕ) : Option Stats :=
  (clockGo frames (List.replicate frames none) (List.replicate frames 0) 0
      Stats.init pages).map (fun r => r.2.2.2)

/-- `rate = (s.hits / s.references) if s.references else 0.0` from
`print_stats`. -/
def hit_rate (s : Stats) : ℚ :=
  if s.references ≠ 0 then (s.hits : ℚ) / (s.references : ℚ) else 0

/-- The configuration check at the end of `parse_cli`: execution continues
iff `policy` is recognized and `frames` is present, nonzero (Python
truthiness of `not ns.frames`) and positive; otherwise `sys.exit(2)` fires
before any trace is loaded or any event processed. -/
def cli_ok (policy : Option String) (frames : Option ℤ) : Bool :=
  (decide (policy = some "lru") || decide (policy = some "clock")) &&
    match frames with
    | none => false
    | some f => decide (f ≠ 0) && decide (0 < f)

/-- `main`: `parse_cli`, then load the trace, then simulate, then report.
`none` models `sys.exit(2)` from `parse_cli` (taken before the trace is
touched, hence before any event is processed). -/
def prac2Main (policy : Option String) (frames : Option ℤ) (pages : List ℕ) :
    Option (Option Stats) :=
  if cli_ok policy frames then
    match policy, frames with
    | some p, some f =>
        if p = "lru" then some (simulate_lru pages f.toNat)
        else some (simulate_clock pages f.toNat)
    | _, _ => none
  else none

/-! ## prac2/memsim_backup.py — FIFO -/

/-- The FIFO page loop of `memsim_backup.py`'s `main`: `memory` is the frame
list, counters `(hits, misses, evictions)`. The source fixes `frames = 3`;
the frame count is the parameter here, used exactly as the source's local.
`memory.pop(0)` on an empty list (unreachable for positive `frames`) is
`none`. -/
def fifoGo (frames : ℕ) : List ℕ → ℕ → ℕ → ℕ → List ℕ →
    Option (List ℕ × ℕ × ℕ × ℕ)
  | memory, hits, misses, evictions, [] => some (memory, hits, misses, evictions)
  | memory, hits, misses, evictions, p :: rest =>
      if p ∈ memory then
        fifoGo frames memory (hits + 1) misses evictions rest
      else
        if memory.length < frames then
          fifoGo frames (memory ++ [p]) hits (misses + 1) evictions rest
        else
          match memory with
          | [] => none
          | _ :: mrest =>
              fifoGo frames (mrest ++ [p]) hits (misses + 1) (evictions + 1) rest

/-- `frames = 3` in `memsim_backup.py`. -/
def fifo_frames : ℕ := 3

/-- The whole FIFO `main` on an already-read page list, through the final
`hit_rate` print: `hits/len(pages)` has no zero guard, so an empty trace is a
ZeroDivisionError (`none`). Returns `(hits, misses, evictions, hit_rate)`. -/
def fifoMain (pages : List ℕ) : Option (ℕ × ℕ × ℕ × ℚ) :=
  match fifoGo fifo_frames [] 0 0 0 pages with
  | none => none
  | some (_, hits, misses, evictions) =>
      if pages.length = 0 then none
      else some (hits, misses, evictions, (hits : ℚ) / (pages.length : ℚ))

end Prac2

namespace Memsim

/-! ## Concrete traces used by the spec's testable properties -/

/-- A pure read trace for `memsim.py`, feeding page `p` as byte address
`p * PAGE_SIZE`. -/
def readsTrace (ps : List ℕ) : List (Op × ℕ) :=
  ps.map fun p => (Op.R, p * PAGE_SIZE)

/-- The CLOCK sanity trace `[1,2,3,1,2,4]`, all reads. -/
def traceClock : List (Op × ℕ) := readsTrace [1, 2, 3, 1, 2, 4]

/-- The CLOCK sanity trace with the fourth access (the hit on page 1) turned
into a write, so that the eventually evicted page is dirty. -/
def traceClockW : List (Op × ℕ) :=
  [(Op.R, 1 * PAGE_SIZE), (Op.R, 2 * PAGE_SIZE), (Op.R, 3 * PAGE_SIZE),
   (Op.W, 1 * PAGE_SIZE), (Op.R, 2 * PAGE_SIZE), (Op.R, 4 * PAGE_SIZE)]

/-- The LRU check trace `1,2,3,4`, all reads. -/
def traceLRU : List (Op × ℕ) := readsTrace [1, 2, 3, 4]

/-- A concrete `ClockSim` state with pages 1 and 2 resident (slots 0 and 1),
used to instantiate hit-path theorems. -/
def clockTwoResident : ClockSim :=
  { capacity := 3, pages := [1, 2, -1], refbit := [1, 0, 0],
    dirty := [0, 0, 0], hand := 0, loc := [(1, 0), (2, 1)], events := 2,
    disk_reads := 2, disk_writes := 0 }

/-- A concrete `LRUSim` state below capacity: pages 1 (clean) and 2 (dirty)
resident out of 3 frames. -/
def lruTwoResident : LRUSim :=
  { capacity := 3, frames := [(1, false), (2, true)], events := 3,
    disk_reads := 2, disk_writes := 0 }

/-- A concrete full `LRUSim` state: pages 1 (dirty), 2, 3 resident in 3
frames, page 1 least recently used. -/
def lruThreeResident : LRUSim :=
  { capacity := 3, frames := [(1, true), (2, false), (3, false)], events := 5,
    disk_reads := 3, disk_writes := 0 }

/-- A concrete full `ClockSim` state: pages 1, 2, 3 resident, page 2 dirty,
only slot 1's reference bit clear, hand at 0. -/
def clockThreeResident : ClockSim :=
  { capacity := 3, pages := [1, 2, 3], refbit := [1, 0, 1],
    dirty := [0, 1, 0], hand := 0, loc := [(1, 0), (2, 1), (3, 2)], events := 5,
    disk_reads := 3, disk_writes := 0 }

/-- Number of occupied (non-`-1`) slots in `ClockSim.pages`: the size of the
CLOCK residency set. -/
def occupiedZ : List ℤ → ℕ
  | [] => 0
  | a :: l => (if a = -1 then 0 else 1) + occupiedZ l

end Memsim

namespace Prac2

/-- Number of occupied (non-`None`) slots in `simulate_clock`'s frame list:
the size of its residency set. -/
def occupied : List (Option ℕ) → ℕ
  | [] => 0
  | a :: l => (if a = none then 0 else 1) + occupied l

/-- Last-use timestamp of page `p` in `simulate_lru`'s dict (0 if absent). -/
def valOf (last : List (ℕ × ℕ)) (p : ℕ) : ℕ :=
  (Memsim.lookupKey p last).getD 0

/-- Simulation relation between the OrderedDict LRU of `memsim.py` and the
timestamp LRU of `prac2/memsim.py`: the two residency structures hold the
same pages, the OrderedDict order (front = least recent) lists the pages in
strictly increasing last-use timestamp, all timestamps are in the past, and
the fault/event counters agree. -/
def LruRel (cap : ℕ) (s : Memsim.LRUSim) (last : List (ℕ × ℕ))
    (st : Stats) (t : ℕ) : Prop :=
  s.capacity = cap ∧
  (s.frames.map Prod.fst).Nodup ∧
  (last.map Prod.fst).Nodup ∧
  (∀ p : ℕ, p ∈ s.frames.map Prod.fst ↔ (Memsim.lookupKey p last).isSome) ∧
  last.length = s.frames.length ∧
  (∀ pv ∈ last, pv.2 < t) ∧
  (s.frames.map Prod.fst).Pairwise (fun p q => valOf last p < valOf last q) ∧
  s.disk_reads = st.misses ∧ s.events = st.references

end Prac2

/-! # Claims -/

open Memsim Prac2

/-- **C1, counterexample.** The claim says the CLOCK policy at capacity 3 on
the read trace `[1,2,3,1,2,4]` evicts page 3 when page 4 is inserted. In
fact both CLOCK implementations evict page 1: placement sets the reference
bit to 1, so after the five first accesses all three bits are 1 (page 3's
from its placement); the scan clears all bits, wraps to the hand's slot and
victimizes it — slot 0, holding page 1. Afterwards page 3 is still resident
(slot 2) and page 1 is not, with exactly one eviction and 4 misses in the
whole trace, so page 3 was never evicted. -/
theorem clock_sanity_trace_counterexample :
    (ClockSim.init 3).runFrom traceClock =
      some { capacity := 3, pages := [4, 2, 3], refbit := [1, 0, 0],
             dirty := [0, 0, 0], hand := 1, loc := [(2, 1), (3, 2), (4, 0)],
             events := 6, disk_reads := 4, disk_writes := 0 } ∧
    Prac2.clockGo 3 (List.replicate 3 none) (List.replicate 3 0) 0 Stats.init
        [1, 2, 3, 1, 2, 4] =
      some ([some 4, some 2, some 3], [1, 0, 0], 1,
            { references := 6, hits := 2, misses := 4, evictions := 1 }) := by
  constructor <;> decide

/-- **C1, amended.** CLOCK with capacity 3 on the read trace `[1,2,3,1,2,4]`:
immediately before page 4 is inserted the frames hold `[1,2,3]` with every
reference bit 1, and inserting page 4 evicts page 1 (not page 3); there is
exactly 1 eviction; no write-back is recorded for the all-read trace, and a
write-back is recorded exactly when a write touched the evicted page 1
before the eviction (the variant trace writing page 1 records exactly 1
write-back). -/
theorem clock_sanity_trace_amended :
    -- memsim.py ClockSim: state just before inserting page 4
    (ClockSim.init 3).runFrom (traceClock.take 5) =
      some { capacity := 3, pages := [1, 2, 3], refbit := [1, 1, 1],
             dirty := [0, 0, 0], hand := 0, loc := [(1, 0), (2, 1), (3, 2)],
             events := 5, disk_reads := 3, disk_writes := 0 } ∧
    -- ... and after inserting page 4: page 1 evicted, 0 write-backs
    (((ClockSim.init 3).runFrom traceClock).map fun s =>
        (s.pages, s.disk_reads, s.disk_writes)) = some ([4, 2, 3], 4, 0) ∧
    -- prac2 simulate_clock: same victim, exactly 1 eviction
    Prac2.simulate_clock [1, 2, 3, 1, 2, 4] 3 =
      some { references := 6, hits := 2, misses := 4, evictions := 1 } ∧
    -- a write to page 1 before its eviction yields exactly 1 write-back
    (((ClockSim.init 3).runFrom traceClockW).map fun s =>
        (s.pages, s.disk_writes)) = some ([4, 2, 3], 1) := by
  refine ⟨by decide, by decide, by decide, by decide⟩

/-- **C2.** LRU with capacity 3 on the four-access read trace `1,2,3,4`:
exactly 4 faults in total, the first 3 of them before any eviction (the
three-access prefix shows 3 misses and 0 evictions), exactly 1 eviction and
0 hits — in both LRU implementations (`memsim.py`'s `LRUSim` counts the
faults as `disk_reads`). -/
theorem lru_trace_1234_stats :
    Prac2.simulate_lru [1, 2, 3, 4] 3 =
      some { references := 4, hits := 0, misses := 4, evictions := 1 } ∧
    Prac2.lruGo 3 [] Stats.init 0 [1, 2, 3] =
      some ([(1, 0), (2, 1), (3, 2)],
            { references := 3, hits := 0, misses := 3, evictions := 0 }) ∧
    (((LRUSim.init 3).runFrom traceLRU).map fun s =>
        (s.events, s.disk_reads, s.frames.map Prod.fst)) =
      some (4, 4, [2, 3, 4]) ∧
    (((LRUSim.init 3).runFrom (traceLRU.take 3)).map fun s =>
        (s.disk_reads, s.frames.map Prod.fst)) = some (3, [1, 2, 3]) := by
  refine ⟨by decide, by decide, by decide, by decide⟩

/-- **C5, counterexample.** The claim quantifies over *every* policy, but the
FIFO variant (`prac2/memsim_backup.py`) prints
`hit_rate: {hits/len(pages):.2%}` with no zero-events guard, so on an empty
trace it dies with a ZeroDivisionError instead of producing a zero-valued
report: its `main`, modelled through the rate computation, yields `none` on
the empty page list. -/
theorem fifo_empty_trace_division_by_zero :
    Prac2.fifoMain [] = none ∧ Prac2.fifoMain [1, 2, 1] = some (1, 2, 0, 1 / 3) := by
  constructor
  · rfl
  · show some ((1 : ℕ), (2 : ℕ), (0 : ℕ), ((1 : ℕ) : ℚ) / (([1, 2, 1] : List ℕ).length : ℚ)) = _
    norm_num

/-- **C5, amended.** For the LRU and CLOCK policies (the `memsim.py` engine
at any positive frame count, and the `prac2/memsim.py` engine at any frame
count), an empty trace is not an error: the report is well formed and
zero-valued, with `events = 0`, zero faults/misses, and derived rate `0.0`
(the guarded division). The FIFO backup variant, by contrast, divides by
zero (see the counterexample). -/
theorem empty_trace_zero_report (nf : ℤ) (hnf : 0 < nf) (frames : ℕ) :
    Memsim.simulate nf "lru" [] = .ok ⟨nf, 0, 0, 0, 0⟩ ∧
    Memsim.simulate nf "clock" [] = .ok ⟨nf, 0, 0, 0, 0⟩ ∧
    Prac2.simulate_lru [] frames = some ⟨0, 0, 0, 0⟩ ∧
    Prac2.simulate_clock [] frames = some ⟨0, 0, 0, 0⟩ ∧
    Prac2.hit_rate ⟨0, 0, 0, 0⟩ = 0 := by
  have hnot : ¬ nf ≤ 0 := not_le.mpr hnf
  refine ⟨?_, ?_, rfl, rfl, rfl⟩ <;>
    simp [Memsim.simulate, LRUSim.mk', ClockSim.mk', hnot, LRUSim.runFrom,
      ClockSim.runFrom, LRUSim.init, ClockSim.init, faultRate]

/-- Witness for `empty_trace_zero_report` at `nf = 3`, `frames = 4`. -/
theorem empty_trace_zero_report_witness :
    (0 : ℤ) < 3 ∧
    (Memsim.simulate 3 "lru" [] = .ok ⟨3, 0, 0, 0, 0⟩ ∧
    Memsim.simulate 3 "clock" [] = .ok ⟨3, 0, 0, 0, 0⟩ ∧
    Prac2.simulate_lru [] 4 = some ⟨0, 0, 0, 0⟩ ∧
    Prac2.simulate_clock [] 4 = some ⟨0, 0, 0, 0⟩ ∧
    Prac2.hit_rate ⟨0, 0, 0, 0⟩ = 0) :=
  ⟨by decide, empty_trace_zero_report 3 (by decide) 4⟩

/-- **C6.** A non-positive frame count or an unrecognized policy name is a
configuration error raised before any trace event is processed: `memsim.py`'s
`simulate` returns the same error message whatever the trace (the
`ValueError` of the constructors or the `NotImplementedError` of the
dispatch, both raised before the event loop), and `prac2/memsim.py`'s
`parse_cli` exits before the trace is even loaded, whatever the pages. -/
theorem config_error_before_any_event (nf : ℤ) (algo : String)
    (h : nf ≤ 0 ∨ (algo ≠ "lru" ∧ algo ≠ "clock"))
    (policy : Option String) (frames : Option ℤ)
    (h2 : (∀ f, frames = some f → f ≤ 0) ∨
      (policy ≠ some "lru" ∧ policy ≠ some "clock")) :
    (∃ e, ∀ trace, Memsim.simulate nf algo trace = .error e) ∧
    (∀ pages, Prac2.prac2Main policy frames pages = none) := by
  constructor
  · by_cases hl : algo = "lru"
    · subst hl
      rcases h with h | h
      · exact ⟨"numframes must be positive", fun trace => by
          simp [Memsim.simulate, LRUSim.mk', h]⟩
      · exact absurd rfl h.1
    · by_cases hc : algo = "clock"
      · subst hc
        rcases h with h | h
        · exact ⟨"numframes must be positive", fun trace => by
            simp [Memsim.simulate, ClockSim.mk', h]⟩
        · exact absurd rfl h.2
      · exact ⟨"Supported algorithms: lru, clock", fun trace => by
          simp [Memsim.simulate, hl, hc]⟩
  · intro pages
    have : Prac2.cli_ok policy frames = false := by
      rcases h2 with h2 | h2
      · rcases frames with _ | f
        · simp [Prac2.cli_ok]
        · have hf := h2 f rfl
          have h0 : ¬ (0 : ℤ) < f := not_lt.mpr hf
          simp [Prac2.cli_ok, h0]
      · simp [Prac2.cli_ok, h2.1, h2.2]
    simp [Prac2.prac2Main, this]

/-- Witness for `config_error_before_any_event`: frame count `-2` with a
valid policy name on the memsim.py side, and the unrecognized policy `"mru"`
on the prac2 side. -/
theorem config_error_before_any_event_witness :
    (((-2 : ℤ) ≤ 0 ∨ ("lru" ≠ "lru" ∧ "lru" ≠ "clock")) ∧
      ((∀ f, (some (3 : ℤ)) = some f → f ≤ 0) ∨
        ((some "mru" ≠ some "lru") ∧ (some "mru" ≠ some "clock")))) ∧
    ((∃ e, ∀ trace, Memsim.simulate (-2) "lru" trace = .error e) ∧
      (∀ pages, Prac2.prac2Main (some "mru") (some 3) pages = none)) :=
  ⟨⟨Or.inl (by decide), Or.inr (by simp)⟩,
    config_error_before_any_event (-2) "lru" (Or.inl (by decide))
      (some "mru") (some 3) (Or.inr (by simp))⟩

/-- **C9.** A CLOCK hit (`loc` maps the accessed page to slot `idx`): the
reference bit of slot `idx` is set to 1, the dirty bit of that slot is set
exactly when the operation is a write, and nothing else changes — hand,
frame contents, page-to-slot lookup, and the fault (`disk_reads`) and
write-back (`disk_writes`) counters are untouched; only `events`
increments. -/
theorem clock_hit_effect (s : ClockSim) (op : Op) (addr : ℕ) (idx : ℕ)
    (h : lookupKey ((addr / PAGE_SIZE : ℕ) : ℤ) s.loc = some idx) :
    ∃ s', s.access op addr = some s' ∧
      s'.pages = s.pages ∧ s'.hand = s.hand ∧ s'.loc = s.loc ∧
      s'.disk_reads = s.disk_reads ∧ s'.disk_writes = s.disk_writes ∧
      s'.events = s.events + 1 ∧
      s'.refbit = setN s.refbit idx 1 ∧
      s'.dirty = (if op = Op.W then setN s.dirty idx 1 else s.dirty) := by
  refine
    ⟨{ s with
        events := s.events + 1
        refbit := setN s.refbit idx 1
        dirty := if op = Op.W then setN s.dirty idx 1 else s.dirty },
      ?_, rfl, rfl, rfl, rfl, rfl, rfl, rfl, rfl⟩
  simp only [ClockSim.access, h]

/-- Witness for `clock_hit_effect`: page 2 resident at slot 1 of
`clockTwoResident`, accessed by a write. -/
theorem clock_hit_effect_witness :
    (lookupKey (((2 * PAGE_SIZE) / PAGE_SIZE : ℕ) : ℤ) clockTwoResident.loc
      = some 1) ∧
    (∃ s', clockTwoResident.access Op.W (2 * PAGE_SIZE) = some s' ∧
      s'.pages = clockTwoResident.pages ∧ s'.hand = clockTwoResident.hand ∧
      s'.loc = clockTwoResident.loc ∧
      s'.disk_reads = clockTwoResident.disk_reads ∧
      s'.disk_writes = clockTwoResident.disk_writes ∧
      s'.events = clockTwoResident.events + 1 ∧
      s'.refbit = setN clockTwoResident.refbit 1 1 ∧
      s'.dirty = (if Op.W = Op.W then setN clockTwoResident.dirty 1 1
        else clockTwoResident.dirty)) :=
  ⟨by decide, clock_hit_effect clockTwoResident Op.W (2 * PAGE_SIZE) 1 (by decide)⟩



/-! ## Helper lemmas on list indexing and the scan -/

namespace Memsim

theorem nth_of_lt {α : Type} :
    ∀ (l : List α) (i : ℕ), i < l.length → ∃ a, nth l i = some a
  | a :: _, 0, _ => ⟨a, rfl⟩
  | _ :: l, i + 1, h => nth_of_lt l i (Nat.lt_of_succ_lt_succ h)

theorem length_setN {α : Type} :
    ∀ (l : List α) (i : ℕ) (a : α), (setN l i a).length = l.length
  | [], _, _ => rfl
  | _ :: _, 0, _ => rfl
  | _ :: l, i + 1, a => congrArg (· + 1) (length_setN l i a)

theorem ones_le_length : ∀ l : List ℕ, ones l ≤ l.length
  | [] => Nat.le_refl 0
  | b :: l => by
      have ih := ones_le_length l
      by_cases hb : b = 0
      · simp only [ones, if_pos hb, List.length_cons]; omega
      · simp only [ones, if_neg hb, List.length_cons]; omega

/-- One unfolding step of the scan at positive fuel. -/
theorem clockScan_succ (cap : ℕ) (ref : List ℕ) (hand fuel : ℕ) :
    clockScan cap ref hand (fuel + 1) =
      match nth ref hand with
      | none => none
      | some b =>
          if b = 0 then some (ref, hand, 0)
          else
            match clockScan cap (setN ref hand 0) ((hand + 1) % cap) fuel with
            | none => none
            | some (r, v, n) => some (r, v, n + 1) := rfl

theorem ones_setN_zero :
    ∀ (l : List ℕ) (i : ℕ) (b : ℕ), nth l i = some b → b ≠ 0 →
      ones (setN l i 0) + 1 = ones l
  | [], i, b, h, _ => by cases h
  | c :: l, 0, b, h, hb => by
      have hcb : c = b := by
        simpa [nth] using h
      subst hcb
      simp [setN, ones, hb]
      omega
  | c :: l, i + 1, b, h, hb => by
      have ih := ones_setN_zero l i b (by simpa [nth] using h) hb
      simp [setN, ones]
      omega

theorem ones_zero_all :
    ∀ (l : List ℕ) (i : ℕ) (b : ℕ), ones l = 0 → nth l i = some b → b = 0
  | c :: l, 0, b, h0, h => by
      have hcb : c = b := by simpa [nth] using h
      subst hcb
      by_contra hb
      simp [ones, hb] at h0
  | c :: l, i + 1, b, h0, h => by
      have : ones l = 0 := by
        by_cases hc : c = 0
        · simp only [ones, if_pos hc] at h0; omega
        · simp only [ones, if_neg hc] at h0; omega
      exact ones_zero_all l i b this (by simpa [nth] using h)

/-- The second-chance scan succeeds given fuel one more than the number of
set bits, victimizes an in-range slot, preserves the array length, and
advances the hand at most `ones ref` times. -/
theorem clockScan_some (cap : ℕ) (hcap : 0 < cap) :
    ∀ (fuel : ℕ) (ref : List ℕ) (hand : ℕ), ref.length = cap → hand < cap →
      ones ref ≤ fuel →
      ∃ r v n, clockScan cap ref hand (fuel + 1) = some (r, v, n) ∧
        n ≤ ones ref ∧ v < cap ∧ r.length = cap := by
  intro fuel
  induction fuel with
  | zero =>
      intro ref hand hlen hhand hones
      obtain ⟨b, hb⟩ := nth_of_lt ref hand (hlen ▸ hhand)
      have hb0 : b = 0 :=
        ones_zero_all ref hand b (Nat.le_zero.mp hones) hb
      subst hb0
      refine ⟨ref, hand, 0, ?_, Nat.zero_le _, hhand, hlen⟩
      rw [clockScan_succ, hb]
      rfl
  | succ fuel ih =>
      intro ref hand hlen hhand hones
      obtain ⟨b, hb⟩ := nth_of_lt ref hand (hlen ▸ hhand)
      by_cases hb0 : b = 0
      · subst hb0
        refine ⟨ref, hand, 0, ?_, Nat.zero_le _, hhand, hlen⟩
        rw [clockScan_succ, hb]
        rfl
      · have hones' : ones (setN ref hand 0) + 1 = ones ref :=
          ones_setN_zero ref hand b hb hb0
        obtain ⟨r, v, n, hscan, hn, hv, hr⟩ :=
          ih (setN ref hand 0) ((hand + 1) % cap)
            ((length_setN ref hand 0).trans hlen) (Nat.mod_lt _ hcap)
            (by omega)
        refine ⟨r, v, n + 1, ?_, by omega, hv, hr⟩
        rw [clockScan_succ, hb]
        dsimp only
        rw [if_neg hb0, hscan]

end Memsim

/-- **C7.** The CLOCK second-chance scan loop (`clockScan`, the `while True`
loop of `ClockSim.access` and of `simulate_clock`, run on a miss with no
empty slot) always terminates, and within at most two full sweeps: with the
reference-bit array of length `cap` and the hand in range, it finds a victim
slot with reference bit 0 after at most `2 * cap` hand advances (in fact at
most `ones ref ≤ cap`), never exhausting the `2 * cap + 1` fuel the embedded
`access` gives it. -/
theorem clock_scan_terminates (cap : ℕ) (ref : List ℕ) (hand : ℕ)
    (hlen : ref.length = cap) (hhand : hand < cap) :
    ∃ r v n, Memsim.clockScan cap ref hand (2 * cap + 1) = some (r, v, n) ∧
      n ≤ 2 * cap ∧ v < cap := by
  have hcap : 0 < cap := Nat.pos_of_ne_zero (by rintro rfl; exact Nat.not_lt_zero _ hhand)
  have hones : Memsim.ones ref ≤ 2 * cap := by
    have := Memsim.ones_le_length ref
    omega
  obtain ⟨r, v, n, hscan, hn, hv, _⟩ :=
    Memsim.clockScan_some cap hcap (2 * cap) ref hand hlen hhand hones
  have hnle : Memsim.ones ref ≤ 2 * cap := hones
  exact ⟨r, v, n, hscan, by omega, hv⟩

/-- Witness for `clock_scan_terminates`: all bits set at capacity 2. -/
theorem clock_scan_terminates_witness :
    (([1, 1] : List ℕ).length = 2 ∧ 0 < 2) ∧
    (∃ r v n, Memsim.clockScan 2 [1, 1] 0 (2 * 2 + 1) = some (r, v, n) ∧
      n ≤ 2 * 2 ∧ v < 2) :=
  ⟨⟨by decide, by decide⟩, clock_scan_terminates 2 [1, 1] 0 (by decide) (by decide)⟩

/-! ## Totality and statistics invariants of the prac2 engines -/

namespace Prac2

open Memsim

/-- `simulate_lru`'s loop is total for a positive frame count, each event
bumps `references` and exactly one of `hits`/`misses`, and `evictions` never
decreases. -/
theorem lruGo_stats (frames : ℕ) (hf : 0 < frames) :
    ∀ (ps : List ℕ) (last : List (ℕ × ℕ)) (st : Stats) (t : ℕ),
      ∃ l' st', lruGo frames last st t ps = some (l', st') ∧
        st'.hits + st'.misses = st.hits + st.misses + ps.length ∧
        st'.references = st.references + ps.length ∧
        st.evictions ≤ st'.evictions := by
  intro ps
  induction ps with
  | nil =>
      intro last st t
      exact ⟨last, st, rfl, by simp, by simp, Nat.le_refl _⟩
  | cons pg rest ih =>
      intro last st t
      cases hlk : lookupKey pg last with
      | some v =>
          obtain ⟨l', st', hgo, h1, h2, h3⟩ :=
            ih (setVal pg t last) ⟨st.references + 1, st.hits + 1, st.misses, st.evictions⟩ (t + 1)
          refine ⟨l', st', ?_, by simp at h1 ⊢; omega, by simp at h2 ⊢; omega,
            by simp at h3 ⊢; omega⟩
          simp only [lruGo, hlk, Option.isSome_some, if_true]
          exact hgo
      | none =>
          by_cases hlen : last.length < frames
          · obtain ⟨l', st', hgo, h1, h2, h3⟩ :=
              ih (last ++ [(pg, t)]) ⟨st.references + 1, st.hits, st.misses + 1, st.evictions⟩ (t + 1)
            refine ⟨l', st', ?_, by simp at h1 ⊢; omega, by simp at h2 ⊢; omega,
              by simp at h3 ⊢; omega⟩
            simp only [lruGo, hlk, Option.isSome_none, Bool.false_eq_true, if_false,
              if_pos hlen]
            exact hgo
          · have hne : last ≠ [] := by
              intro h
              rw [h] at hlen
              simp at hlen
              omega
            obtain ⟨x, xs, hxs⟩ : ∃ x xs, last = x :: xs := by
              cases last with
              | nil => exact absurd rfl hne
              | cons x xs => exact ⟨x, xs, rfl⟩
            obtain ⟨l', st', hgo, h1, h2, h3⟩ :=
              ih (eraseKey (pyMinVal x xs).1 last ++ [(pg, t)])
                ⟨st.references + 1, st.hits, st.misses + 1, st.evictions + 1⟩ (t + 1)
            refine ⟨l', st', ?_, by simp at h1 ⊢; omega, by simp at h2 ⊢; omega,
              by simp at h3 ⊢; omega⟩
            subst hxs
            simp only [lruGo, hlk, Option.isSome_none, Bool.false_eq_true, if_false,
              if_neg hlen, pyMin]
            exact hgo

/-- `simulate_clock`'s loop is total for a positive frame count (the scan
always finds a victim), preserves the frame-array shapes, and each event
bumps `references` and exactly one of `hits`/`misses`. -/
theorem clockGo_stats (frames : ℕ) (hf : 0 < frames) :
    ∀ (ps : List ℕ) (frame : List (Option ℕ)) (refbit : List ℕ) (hand : ℕ) (st : Stats),
      frame.length = frames → refbit.length = frames → hand < frames →
      ∃ fr' rb' h' st', clockGo frames frame refbit hand st ps = some (fr', rb', h', st') ∧
        st'.hits + st'.misses = st.hits + st.misses + ps.length ∧
        st'.references = st.references + ps.length ∧
        fr'.length = frames ∧ rb'.length = frames ∧ h' < frames ∧
        st.evictions ≤ st'.evictions := by
  intro ps
  induction ps with
  | nil =>
      intro frame refbit hand st hfr hrb hh
      exact ⟨frame, refbit, hand, st, rfl, by simp, by simp, hfr, hrb, hh, Nat.le_refl _⟩
  | cons pg rest ih =>
      intro frame refbit hand st hfr hrb hh
      cases hhit : findHit pg frame with
      | some i =>
          obtain ⟨fr', rb', h', st', hgo, h1, h2, h3, h4, h5, h6⟩ :=
            ih frame (setN refbit i 1) hand ⟨st.references + 1, st.hits + 1, st.misses, st.evictions⟩
              hfr ((length_setN refbit i 1).trans hrb) hh
          refine ⟨fr', rb', h', st', ?_, by simp at h1 ⊢; omega, by simp at h2 ⊢; omega,
            h3, h4, h5, by simp at h6 ⊢; omega⟩
          simp only [clockGo, hhit]
          exact hgo
      | none =>
          cases hemp : findNone frame with
          | some i =>
              obtain ⟨fr', rb', h', st', hgo, h1, h2, h3, h4, h5, h6⟩ :=
                ih (setN frame i (some pg)) (setN refbit i 1) hand
                  ⟨st.references + 1, st.hits, st.misses + 1, st.evictions⟩
                  ((length_setN frame i (some pg)).trans hfr)
                  ((length_setN refbit i 1).trans hrb) hh
              refine ⟨fr', rb', h', st', ?_, by simp at h1 ⊢; omega, by simp at h2 ⊢; omega,
                h3, h4, h5, by simp at h6 ⊢; omega⟩
              simp only [clockGo, hhit, hemp]
              exact hgo
          | none =>
              have hones : ones refbit ≤ 2 * frames := by
                have := ones_le_length refbit
                omega
              obtain ⟨r, v, n, hscan, hn, hv, hrlen⟩ :=
                clockScan_some frames hf (2 * frames) refbit hand hrb hh hones
              obtain ⟨fr', rb', h', st', hgo, h1, h2, h3, h4, h5, h6⟩ :=
                ih (setN frame v (some pg)) (setN r v 1) ((v + 1) % frames)
                  ⟨st.references + 1, st.hits, st.misses + 1, st.evictions + 1⟩
                  ((length_setN frame v (some pg)).trans hfr)
                  ((length_setN r v 1).trans hrlen) (Nat.mod_lt _ hf)
              refine ⟨fr', rb', h', st', ?_, by simp at h1 ⊢; omega, by simp at h2 ⊢; omega,
                h3, h4, h5, by simp at h6 ⊢; omega⟩
              simp only [clockGo, hhit, hemp, hscan]
              exact hgo

/-- The FIFO loop is total for a positive frame count, each page bumps
exactly one of `hits`/`misses`, the memory never exceeds the frame count,
and `evictions` never decreases. -/
theorem fifoGo_stats (frames : ℕ) (hf : 0 < frames) :
    ∀ (ps : List ℕ) (memory : List ℕ) (hits misses evictions : ℕ),
      memory.length ≤ frames →
      ∃ mem' h' m' e', fifoGo frames memory hits misses evictions ps = some (mem', h', m', e') ∧
        h' + m' = hits + misses + ps.length ∧ mem'.length ≤ frames ∧
        evictions ≤ e' := by
  intro ps
  induction ps with
  | nil =>
      intro memory hits misses evictions hmem
      exact ⟨memory, hits, misses, evictions, rfl, by simp, hmem, Nat.le_refl _⟩
  | cons p rest ih =>
      intro memory hits misses evictions hmem
      by_cases hin : p ∈ memory
      · obtain ⟨mem', h', m', e', hgo, h1, h2, h3⟩ :=
          ih memory (hits + 1) misses evictions hmem
        refine ⟨mem', h', m', e', ?_, by simp at h1 ⊢; omega, h2, h3⟩
        simp only [fifoGo, if_pos hin]
        exact hgo
      · by_cases hlen : memory.length < frames
        · obtain ⟨mem', h', m', e', hgo, h1, h2, h3⟩ :=
            ih (memory ++ [p]) hits (misses + 1) evictions (by simp; omega)
          refine ⟨mem', h', m', e', ?_, by simp at h1 ⊢; omega, h2, h3⟩
          simp only [fifoGo, if_neg hin, if_pos hlen]
          exact hgo
        · have hne : memory ≠ [] := by
            intro h
            rw [h] at hlen
            simp at hlen
            omega
          obtain ⟨x, xs, hxs⟩ : ∃ x xs, memory = x :: xs := by
            cases memory with
            | nil => exact absurd rfl hne
            | cons x xs => exact ⟨x, xs, rfl⟩
          obtain ⟨mem', h', m', e', hgo, h1, h2, h3⟩ :=
            ih (xs ++ [p]) hits (misses + 1) (evictions + 1)
              (by subst hxs; simp at hmem ⊢; omega)
          refine ⟨mem', h', m', e', ?_, by simp at h1 ⊢; omega, h2, by omega⟩
          subst hxs
          simp only [fifoGo, if_neg hin, if_neg hlen]
          exact hgo

end Prac2

/-- **C3.** For every policy (LRU, CLOCK, FIFO) at every positive frame
count and for every trace, processing the whole trace succeeds and the final
counters satisfy `misses + hits = events` (the references processed), with
`hits`, `misses`, `evictions` all non-negative (they live in `ℕ` and only
grow from 0). The engines reject non-positive frame counts before
processing, so every configured run has `0 < frames`. -/
theorem counters_misses_plus_hits_eq_events (frames : ℕ) (hf : 0 < frames)
    (ps : List ℕ) :
    (∃ st, Prac2.simulate_lru ps frames = some st ∧
      st.misses + st.hits = st.references ∧ st.references = ps.length ∧
      0 ≤ st.hits ∧ 0 ≤ st.misses ∧ 0 ≤ st.evictions) ∧
    (∃ st, Prac2.simulate_clock ps frames = some st ∧
      st.misses + st.hits = st.references ∧ st.references = ps.length ∧
      0 ≤ st.hits ∧ 0 ≤ st.misses ∧ 0 ≤ st.evictions) ∧
    (∃ mem hits misses evictions,
      Prac2.fifoGo frames [] 0 0 0 ps = some (mem, hits, misses, evictions) ∧
      misses + hits = ps.length) := by
  refine ⟨?_, ?_, ?_⟩
  · obtain ⟨l', st', hgo, h1, h2, h3⟩ :=
      Prac2.lruGo_stats frames hf ps [] Prac2.Stats.init 0
    refine ⟨st', ?_, by simp [Prac2.Stats.init] at h1 h2; omega,
      by simp [Prac2.Stats.init] at h2; omega, Nat.zero_le _, Nat.zero_le _, Nat.zero_le _⟩
    simp only [Prac2.simulate_lru, hgo, Option.map]
  · obtain ⟨fr', rb', h', st', hgo, h1, h2, _, _, _, _⟩ :=
      Prac2.clockGo_stats frames hf ps (List.replicate frames none)
        (List.replicate frames 0) 0 Prac2.Stats.init
        (List.length_replicate _ _) (List.length_replicate _ _) hf
    refine ⟨st', ?_, by simp [Prac2.Stats.init] at h1 h2; omega,
      by simp [Prac2.Stats.init] at h2; omega, Nat.zero_le _, Nat.zero_le _, Nat.zero_le _⟩
    simp only [Prac2.simulate_clock, hgo, Option.map]
  · obtain ⟨mem', hh, mm, ee, hgo, h1, _, _⟩ :=
      Prac2.fifoGo_stats frames hf ps [] 0 0 0 (by simp)
    exact ⟨mem', hh, mm, ee, hgo, by omega⟩

/-- Witness for `counters_misses_plus_hits_eq_events` at 2 frames and trace
`[1, 2, 1, 3]`. -/
theorem counters_misses_plus_hits_eq_events_witness :
    0 < 2 ∧
    ((∃ st, Prac2.simulate_lru [1, 2, 1, 3] 2 = some st ∧
      st.misses + st.hits = st.references ∧ st.references = [1, 2, 1, 3].length ∧
      0 ≤ st.hits ∧ 0 ≤ st.misses ∧ 0 ≤ st.evictions) ∧
    (∃ st, Prac2.simulate_clock [1, 2, 1, 3] 2 = some st ∧
      st.misses + st.hits = st.references ∧ st.references = [1, 2, 1, 3].length ∧
      0 ≤ st.hits ∧ 0 ≤ st.misses ∧ 0 ≤ st.evictions) ∧
    (∃ mem hits misses evictions,
      Prac2.fifoGo 2 [] 0 0 0 [1, 2, 1, 3] = some (mem, hits, misses, evictions) ∧
      misses + hits = [1, 2, 1, 3].length)) :=
  ⟨by decide, counters_misses_plus_hits_eq_events 2 (by decide) [1, 2, 1, 3]⟩

/-! ## Association-list and occupancy lemmas -/

namespace Memsim

theorem lookupKey_append {κ α : Type} [DecidableEq κ] (p : κ) :
    ∀ l₁ l₂ : List (κ × α), lookupKey p (l₁ ++ l₂) =
      match lookupKey p l₁ with
      | some v => some v
      | none => lookupKey p l₂
  | [], l₂ => rfl
  | (q, v) :: rest, l₂ => by
      by_cases hq : q = p
      · simp [lookupKey, hq]
      · simp [lookupKey, hq, lookupKey_append p rest l₂]

theorem lookupKey_eraseKey_ne {κ α : Type} [DecidableEq κ] {p q : κ} (hne : q ≠ p) :
    ∀ l : List (κ × α), lookupKey q (eraseKey p l) = lookupKey q l
  | [] => rfl
  | (k, v) :: rest => by
      by_cases hkp : k = p
      · have hkq : ¬ k = q := fun h => hne (h ▸ hkp)
        simp [eraseKey, hkp, lookupKey, hkq, Ne.symm hne]
      · by_cases hkq : k = q
        · simp [eraseKey, hkp, lookupKey, hkq, hne]
        · simp [eraseKey, hkp, lookupKey, hkq, lookupKey_eraseKey_ne hne rest]

theorem length_eraseKey_of_isSome {κ α : Type} [DecidableEq κ] (p : κ) :
    ∀ l : List (κ × α), (lookupKey p l).isSome → (eraseKey p l).length + 1 = l.length
  | [], h => by simp [lookupKey] at h
  | (k, v) :: rest, h => by
      by_cases hk : k = p
      · simp [eraseKey, hk]
      · simp only [lookupKey, if_neg hk] at h
        simp [eraseKey, hk, length_eraseKey_of_isSome p rest h]

theorem length_setVal {κ α : Type} [DecidableEq κ] (p : κ) (t : α) :
    ∀ l : List (κ × α), (setVal p t l).length = l.length
  | [] => rfl
  | (k, v) :: rest => by
      by_cases hk : k = p <;> simp [setVal, hk, length_setVal p t rest]

theorem lookupKey_isSome_of_mem {κ α : Type} [DecidableEq κ] {k : κ} {v : α} :
    ∀ {l : List (κ × α)}, (k, v) ∈ l → (lookupKey k l).isSome
  | (q, w) :: rest, h => by
      by_cases hq : q = k
      · simp [lookupKey, hq]
      · rcases List.mem_cons.mp h with h1 | h2
        · injection h1 with h1a h1b
          exact absurd h1a.symm hq
        · simp only [lookupKey, if_neg hq]
          exact lookupKey_isSome_of_mem h2

theorem nth_some_lt {α : Type} :
    ∀ (l : List α) (i : ℕ) (a : α), nth l i = some a → i < l.length
  | [], _, _, h => by cases h
  | _ :: _, 0, _, _ => Nat.succ_pos _
  | _ :: l, i + 1, a, h => Nat.succ_lt_succ (nth_some_lt l i a h)

theorem occupiedZ_le_length : ∀ l : List ℤ, occupiedZ l ≤ l.length
  | [] => Nat.le_refl 0
  | a :: l => by
      have ih := occupiedZ_le_length l
      by_cases ha : a = -1
      · simp only [occupiedZ, if_pos ha, List.length_cons]; omega
      · simp only [occupiedZ, if_neg ha, List.length_cons]; omega

theorem findEmpty_none_occupiedZ : ∀ l : List ℤ, findEmpty l = none → occupiedZ l = l.length
  | [], _ => rfl
  | a :: l, h => by
      by_cases ha : a = -1
      · simp [findEmpty, ha] at h
      · simp only [findEmpty, if_neg ha, Option.map_eq_none'] at h
        simp only [occupiedZ, if_neg ha, List.length_cons, findEmpty_none_occupiedZ l h]
        omega

theorem findEmpty_some_nth : ∀ (l : List ℤ) (i : ℕ), findEmpty l = some i → nth l i = some (-1)
  | [], _, h => by cases h
  | a :: l, i, h => by
      by_cases ha : a = -1
      · simp only [findEmpty, if_pos ha, Option.some.injEq] at h
        subst h
        simp [nth, ha]
      · simp only [findEmpty, if_neg ha, Option.map_eq_some'] at h
        obtain ⟨j, hj, rfl⟩ := h
        exact findEmpty_some_nth l j hj

theorem findEmpty_none_nth : ∀ (l : List ℤ) (i : ℕ) (a : ℤ),
    findEmpty l = none → nth l i = some a → a ≠ -1
  | [], _, _, _, hn => by cases hn
  | b :: l, 0, a, h, hn => by
      have hab : b = a := by simpa [nth] using hn
      subst hab
      by_cases hb : b = -1
      · simp [findEmpty, hb] at h
      · exact hb
  | b :: l, i + 1, a, h, hn => by
      by_cases hb : b = -1
      · simp [findEmpty, hb] at h
      · simp only [findEmpty, if_neg hb, Option.map_eq_none'] at h
        exact findEmpty_none_nth l i a h (by simpa [nth] using hn)

end Memsim

namespace Prac2

open Memsim

theorem occupied_le_length : ∀ l : List (Option ℕ), occupied l ≤ l.length
  | [] => Nat.le_refl 0
  | a :: l => by
      have ih := occupied_le_length l
      by_cases ha : a = none
      · simp only [occupied, if_pos ha, List.length_cons]; omega
      · simp only [occupied, if_neg ha, List.length_cons]; omega

theorem findNone_none_occupied :
    ∀ l : List (Option ℕ), findNone l = none → occupied l = l.length
  | [], _ => rfl
  | a :: l, h => by
      by_cases ha : a = none
      · simp [findNone, ha] at h
      · simp only [findNone, if_neg ha, Option.map_eq_none'] at h
        simp only [occupied, if_neg ha, List.length_cons, findNone_none_occupied l h]
        omega

theorem findNone_some_occupied :
    ∀ (l : List (Option ℕ)) (i : ℕ), findNone l = some i → occupied l < l.length
  | [], _, h => by cases h
  | a :: l, i, h => by
      by_cases ha : a = none
      · have := occupied_le_length l
        simp only [occupied, if_pos ha, List.length_cons]
        omega
      · simp only [findNone, if_neg ha, Option.map_eq_some'] at h
        obtain ⟨j, hj, rfl⟩ := h
        have := findNone_some_occupied l j hj
        simp only [occupied, if_neg ha, List.length_cons]
        omega

theorem pyMinVal_mem : ∀ (acc : ℕ × ℕ) (l : List (ℕ × ℕ)), pyMinVal acc l ∈ acc :: l
  | acc, [] => List.mem_singleton.mpr rfl
  | acc, kv :: rest => by
      by_cases hlt : kv.2 < acc.2
      · simp only [pyMinVal, if_pos hlt]
        exact List.mem_cons_of_mem acc (pyMinVal_mem kv rest)
      · simp only [pyMinVal, if_neg hlt]
        have h := pyMinVal_mem acc rest
        rcases List.mem_cons.mp h with h1 | h1
        · rw [h1]
          exact List.mem_cons_self _ _
        · exact List.mem_cons_of_mem _ (List.mem_cons_of_mem _ h1)

theorem pyMinVal_le :
    ∀ (acc : ℕ × ℕ) (l : List (ℕ × ℕ)) (y : ℕ × ℕ), y ∈ acc :: l →
      (pyMinVal acc l).2 ≤ y.2
  | acc, [], y, hy => by
      have h : y = acc := List.mem_singleton.mp hy
      rw [h]
      exact Nat.le_refl _
  | acc, kv :: rest, y, hy => by
      simp only [pyMinVal]
      have hm : (pyMinVal (if kv.2 < acc.2 then kv else acc) rest).2 ≤
          (if kv.2 < acc.2 then kv else acc).2 :=
        pyMinVal_le _ rest _ (List.mem_cons_self _ _)
      have hma : (if kv.2 < acc.2 then kv else acc).2 ≤ acc.2 := by
        by_cases hlt : kv.2 < acc.2
        · simp only [if_pos hlt]
          exact Nat.le_of_lt hlt
        · simp only [if_neg hlt]
          exact Nat.le_refl _
      have hmk : (if kv.2 < acc.2 then kv else acc).2 ≤ kv.2 := by
        by_cases hlt : kv.2 < acc.2
        · simp only [if_pos hlt]
          exact Nat.le_refl _
        · simp only [if_neg hlt]
          exact Nat.le_of_not_lt hlt
      rcases List.mem_cons.mp hy with h1 | h1
      · rw [h1]
        omega
      · rcases List.mem_cons.mp h1 with h2 | h2
        · rw [h2]
          omega
        · exact pyMinVal_le _ rest y (List.mem_cons_of_mem _ h2)

end Prac2

namespace Prac2

open Memsim

/-- The LRU residency dict never exceeds the frame count. -/
theorem lruGo_len_le (frames : ℕ) :
    ∀ (ps : List ℕ) (last : List (ℕ × ℕ)) (st : Stats) (t : ℕ)
      (l' : List (ℕ × ℕ)) (st' : Stats),
      last.length ≤ frames → lruGo frames last st t ps = some (l', st') →
      l'.length ≤ frames := by
  intro ps
  induction ps with
  | nil =>
      intro last st t l' st' hle h
      simp only [lruGo, Option.some.injEq, Prod.mk.injEq] at h
      obtain ⟨h1, -⟩ := h
      rw [← h1]
      exact hle
  | cons pg rest ih =>
      intro last st t l' st' hle h
      cases hlk : lookupKey pg last with
      | some v =>
          simp only [lruGo, hlk, Option.isSome_some, if_true] at h
          exact ih (setVal pg t last) _ (t + 1) l' st'
            ((length_setVal pg t last) ▸ hle) h
      | none =>
          by_cases hlen : last.length < frames
          · simp only [lruGo, hlk, Option.isSome_none, Bool.false_eq_true, if_false,
              if_pos hlen] at h
            exact ih (last ++ [(pg, t)]) _ (t + 1) l' st'
              (by simp; omega) h
          · cases last with
            | nil =>
                exfalso
                simp only [lruGo, hlk, Option.isSome_none, Bool.false_eq_true, if_false,
                  if_neg hlen, pyMin] at h
                exact Option.noConfusion h
            | cons x xs =>
                simp only [lruGo, hlk, Option.isSome_none, Bool.false_eq_true, if_false,
                  if_neg hlen, pyMin] at h
                have hmem := pyMinVal_mem x xs
                have hsome : (lookupKey (pyMinVal x xs).1 (x :: xs)).isSome :=
                  lookupKey_isSome_of_mem (by
                    have he : ((pyMinVal x xs).1, (pyMinVal x xs).2) = pyMinVal x xs := rfl
                    rw [he]
                    exact hmem)
                have hlenk := length_eraseKey_of_isSome (pyMinVal x xs).1 (x :: xs) hsome
                refine ih _ _ (t + 1) l' st' ?_ h
                simp only [List.length_append, List.length_cons, List.length_nil] at hlenk ⊢
                simp only [List.length_cons] at hle
                omega

/-- A single LRU step increments the eviction counter exactly when the page
misses while the dict already holds `frames` entries. -/
theorem lruGo_step_eviction (frames : ℕ) (hf : 0 < frames)
    (last : List (ℕ × ℕ)) (st : Stats) (t pg : ℕ) (hwf : last.length ≤ frames) :
    ∃ l' st', lruGo frames last st t [pg] = some (l', st') ∧
      (st'.evictions = st.evictions + 1 ↔
        lookupKey pg last = none ∧ last.length = frames) := by
  cases hlk : lookupKey pg last with
  | some v =>
      refine ⟨setVal pg t last, ⟨st.references + 1, st.hits + 1, st.misses, st.evictions⟩,
        ?_, ?_⟩
      · simp only [lruGo, hlk, Option.isSome_some, if_true]
      · constructor
        · intro h
          have h2 : st.evictions = st.evictions + 1 := h
          exact (Nat.succ_ne_self st.evictions h2.symm).elim
        · rintro ⟨h, -⟩
          exact Option.noConfusion h
  | none =>
      by_cases hlen : last.length < frames
      · refine ⟨last ++ [(pg, t)], ⟨st.references + 1, st.hits, st.misses + 1, st.evictions⟩,
          ?_, ?_⟩
        · simp only [lruGo, hlk, Option.isSome_none, Bool.false_eq_true, if_false,
            if_pos hlen]
        · constructor
          · intro h
            have h2 : st.evictions = st.evictions + 1 := h
            exact (Nat.succ_ne_self st.evictions h2.symm).elim
          · rintro ⟨-, h2⟩
            exact absurd h2 (Nat.ne_of_lt hlen)
      · cases last with
        | nil =>
            exfalso
            simp only [List.length_nil, Nat.not_lt, Nat.le_zero] at hlen
            omega
        | cons x xs =>
            refine ⟨eraseKey (pyMinVal x xs).1 (x :: xs) ++ [(pg, t)],
              ⟨st.references + 1, st.hits, st.misses + 1, st.evictions + 1⟩, ?_, ?_⟩
            · simp only [lruGo, hlk, Option.isSome_none, Bool.false_eq_true, if_false,
                if_neg hlen, pyMin]
            · constructor
              · intro _
                refine ⟨rfl, ?_⟩
                simp only [List.length_cons] at hwf hlen ⊢
                omega
              · intro _
                rfl

/-- A single CLOCK step (prac2) increments the eviction counter exactly when
the page misses while every frame slot is occupied; the residency set never
exceeds the frame count. -/
theorem clockGo_step_eviction (frames : ℕ) (frame : List (Option ℕ))
    (refbit : List ℕ) (hand : ℕ) (st : Stats) (pg : ℕ)
    (hfr : frame.length = frames) (hrb : refbit.length = frames) (hh : hand < frames) :
    ∃ fr' rb' h' st', clockGo frames frame refbit hand st [pg] = some (fr', rb', h', st') ∧
      (st'.evictions = st.evictions + 1 ↔
        findHit pg frame = none ∧ occupied frame = frames) ∧
      occupied frame ≤ frames := by
  have hocc_le : occupied frame ≤ frames := hfr ▸ occupied_le_length frame
  cases hhit : findHit pg frame with
  | some i =>
      refine ⟨frame, setN refbit i 1, hand,
        ⟨st.references + 1, st.hits + 1, st.misses, st.evictions⟩, ?_, ?_, hocc_le⟩
      · simp only [clockGo, hhit]
      · constructor
        · intro h
          have h2 : st.evictions = st.evictions + 1 := h
          exact (Nat.succ_ne_self st.evictions h2.symm).elim
        · rintro ⟨h, -⟩
          exact Option.noConfusion h
  | none =>
      cases hemp : findNone frame with
      | some i =>
          refine ⟨setN frame i (some pg), setN refbit i 1, hand,
            ⟨st.references + 1, st.hits, st.misses + 1, st.evictions⟩, ?_, ?_, hocc_le⟩
          · simp only [clockGo, hhit, hemp]
          · have hlt := findNone_some_occupied frame i hemp
            rw [hfr] at hlt
            constructor
            · intro h
              have h2 : st.evictions = st.evictions + 1 := h
              exact (Nat.succ_ne_self st.evictions h2.symm).elim
            · rintro ⟨-, h2⟩
              exact absurd h2 (Nat.ne_of_lt hlt)
      | none =>
          have hcap : 0 < frames := Nat.pos_of_ne_zero (by
            rintro rfl
            exact Nat.not_lt_zero _ hh)
          have hones : ones refbit ≤ 2 * frames := by
            have := ones_le_length refbit
            omega
          obtain ⟨r, v, n, hscan, _, hv, _⟩ :=
            clockScan_some frames hcap (2 * frames) refbit hand hrb hh hones
          refine ⟨setN frame v (some pg), setN r v 1, (v + 1) % frames,
            ⟨st.references + 1, st.hits, st.misses + 1, st.evictions + 1⟩, ?_, ?_, hocc_le⟩
          · simp only [clockGo, hhit, hemp, hscan]
          · have hfull := findNone_none_occupied frame hemp
            constructor
            · intro _
              exact ⟨rfl, by rw [← hfr]; exact hfull.symm ▸ rfl⟩
            · intro _
              rfl

/-- A single FIFO step increments the eviction counter exactly when the page
misses with the memory full. -/
theorem fifoGo_step_eviction (frames : ℕ) (hf : 0 < frames) (memory : List ℕ)
    (hits misses evictions p : ℕ) (hwf : memory.length ≤ frames) :
    ∃ mem' h' m' e', fifoGo frames memory hits misses evictions [p] =
        some (mem', h', m', e') ∧
      (e' = evictions + 1 ↔ p ∉ memory ∧ memory.length = frames) ∧
      mem'.length ≤ frames := by
  by_cases hin : p ∈ memory
  · refine ⟨memory, hits + 1, misses, evictions, ?_, ?_, hwf⟩
    · simp only [fifoGo, if_pos hin]
    · constructor
      · intro h
        exact (Nat.succ_ne_self evictions h.symm).elim
      · rintro ⟨h, -⟩
        exact absurd hin h
  · by_cases hlen : memory.length < frames
    · refine ⟨memory ++ [p], hits, misses + 1, evictions, ?_, ?_, by simp; omega⟩
      · simp only [fifoGo, if_neg hin, if_pos hlen]
      · constructor
        · intro h
          exact (Nat.succ_ne_self evictions h.symm).elim
        · rintro ⟨-, h2⟩
          exact absurd h2 (Nat.ne_of_lt hlen)
    · cases memory with
      | nil =>
          exfalso
          simp only [List.length_nil, Nat.not_lt, Nat.le_zero] at hlen
          omega
      | cons x xs =>
          refine ⟨xs ++ [p], hits, misses + 1, evictions + 1, ?_, ?_, ?_⟩
          · simp only [fifoGo, if_neg hin, if_neg hlen]
          · constructor
            · intro _
              refine ⟨hin, ?_⟩
              omega
            · intro _
              rfl
          · simp only [List.length_cons] at hwf
            simp only [List.length_append, List.length_cons, List.length_nil]
            omega

end Prac2

namespace Memsim

/-- `LRUSim.access` keeps the capacity and never lets the frame dict grow
beyond it. -/
theorem LRUSim_access_len_le (s : LRUSim) (op : Op) (addr : ℕ) (s' : LRUSim)
    (hle : s.frames.length ≤ s.capacity) (hacc : s.access op addr = some s') :
    s'.capacity = s.capacity ∧ s'.frames.length ≤ s.capacity := by
  cases hlk : lookupKey (addr / PAGE_SIZE) s.frames with
  | some d =>
      simp only [LRUSim.access, hlk, Option.some.injEq] at hacc
      have hlenk := length_eraseKey_of_isSome (addr / PAGE_SIZE) s.frames
        (by rw [hlk]; rfl)
      rw [← hacc]
      refine ⟨rfl, ?_⟩
      simp only [List.length_append, List.length_cons, List.length_nil]
      omega
  | none =>
      by_cases hc : s.capacity ≤ s.frames.length
      · cases hf : s.frames with
        | nil =>
            simp only [LRUSim.access, hlk] at hacc
            rw [hf] at hacc hc
            rw [if_pos hc] at hacc
            exact Option.noConfusion hacc
        | cons head rest =>
            obtain ⟨q, d⟩ := head
            simp only [LRUSim.access, hlk] at hacc
            rw [hf] at hacc hc
            rw [if_pos hc] at hacc
            simp only [Option.some.injEq] at hacc
            rw [← hacc]
            refine ⟨rfl, ?_⟩
            rw [hf] at hle
            simp only [List.length_cons] at hle
            simp only [List.length_append, List.length_cons, List.length_nil]
            omega
      · simp only [LRUSim.access, hlk] at hacc
        rw [if_neg hc] at hacc
        simp only [Option.some.injEq] at hacc
        rw [← hacc]
        refine ⟨rfl, ?_⟩
        simp only [List.length_append, List.length_cons, List.length_nil]
        omega

/-- Along any run of `LRUSim`, the capacity is unchanged and at most
`capacity` pages are ever resident. -/
theorem LRUSim_run_len_le :
    ∀ (tr : List (Op × ℕ)) (s s' : LRUSim),
      s.frames.length ≤ s.capacity → s.runFrom tr = some s' →
      s'.capacity = s.capacity ∧ s'.frames.length ≤ s.capacity
  | [], s, s', hle, h => by
      simp only [LRUSim.runFrom, Option.some.injEq] at h
      rw [← h]
      exact ⟨rfl, hle⟩
  | (op, a) :: tr, s, s', hle, h => by
      simp only [LRUSim.runFrom] at h
      cases hacc : s.access op a with
      | none => rw [hacc] at h; exact Option.noConfusion h
      | some s1 =>
          rw [hacc] at h
          obtain ⟨hcap, hlen⟩ := LRUSim_access_len_le s op a s1 hle hacc
          obtain ⟨hcap', hlen'⟩ :=
            LRUSim_run_len_le tr s1 s' (by rw [hcap]; exact hlen) h
          exact ⟨hcap'.trans hcap, by rw [← hcap]; exact hlen'⟩

/-- Below capacity, an `LRUSim` access never evicts: it succeeds, writes
nothing back, and every previously resident page stays resident. -/
theorem LRUSim_access_no_evict (s : LRUSim) (op : Op) (addr : ℕ)
    (h : s.frames.length < s.capacity) :
    ∃ s', s.access op addr = some s' ∧ s'.capacity = s.capacity ∧
      s'.disk_writes = s.disk_writes ∧
      ∀ p, (lookupKey p s.frames).isSome → (lookupKey p s'.frames).isSome := by
  cases hlk : lookupKey (addr / PAGE_SIZE) s.frames with
  | some d =>
      refine ⟨{ s with
          events := s.events + 1
          frames := eraseKey (addr / PAGE_SIZE) s.frames ++
            [(addr / PAGE_SIZE, if op = Op.W then true else d)] },
        ?_, rfl, rfl, ?_⟩
      · simp only [LRUSim.access, hlk]
      · intro p hp
        show (lookupKey p (eraseKey (addr / PAGE_SIZE) s.frames ++
          [(addr / PAGE_SIZE, if op = Op.W then true else d)])).isSome = true
        rw [lookupKey_append]
        by_cases hpq : p = addr / PAGE_SIZE
        · subst hpq
          cases he : lookupKey (addr / PAGE_SIZE) (eraseKey (addr / PAGE_SIZE) s.frames) with
          | some w => rfl
          | none => simp [lookupKey]
        · rw [lookupKey_eraseKey_ne hpq]
          cases he : lookupKey p s.frames with
          | some w => rfl
          | none => rw [he] at hp; simp at hp
  | none =>
      have hc : ¬ s.capacity ≤ s.frames.length := Nat.not_le.mpr h
      refine ⟨{ s with
          events := s.events + 1
          disk_reads := s.disk_reads + 1
          frames := s.frames ++ [(addr / PAGE_SIZE, decide (op = Op.W))] },
        ?_, rfl, rfl, ?_⟩
      · simp only [LRUSim.access, hlk]
        rw [if_neg hc]
      · intro p hp
        show (lookupKey p (s.frames ++ [(addr / PAGE_SIZE, decide (op = Op.W))])).isSome = true
        rw [lookupKey_append]
        cases he : lookupKey p s.frames with
        | some w => rfl
        | none => rw [he] at hp; simp at hp

/-- `ClockSim.access` is total on well-formed states and preserves the state
shape: array lengths stay `capacity` and the hand stays in range. -/
theorem ClockSim_access_shape (s : ClockSim) (op : Op) (addr : ℕ)
    (hcap : 0 < s.capacity)
    (h1 : s.pages.length = s.capacity) (h2 : s.refbit.length = s.capacity)
    (h3 : s.dirty.length = s.capacity) (h4 : s.hand < s.capacity) :
    ∃ s', s.access op addr = some s' ∧ s'.capacity = s.capacity ∧
      s'.pages.length = s.capacity ∧ s'.refbit.length = s.capacity ∧
      s'.dirty.length = s.capacity ∧ s'.hand < s.capacity := by
  cases hlk : lookupKey ((addr / PAGE_SIZE : ℕ) : ℤ) s.loc with
  | some idx =>
      refine ⟨{ s with
          events := s.events + 1
          refbit := setN s.refbit idx 1
          dirty := if op = Op.W then setN s.dirty idx 1 else s.dirty },
        ?_, rfl, h1, ?_, ?_, h4⟩
      · simp only [ClockSim.access, hlk]
      · show (setN s.refbit idx 1).length = s.capacity
        rw [length_setN]
        exact h2
      · show (if op = Op.W then setN s.dirty idx 1 else s.dirty).length = s.capacity
        by_cases hw : op = Op.W
        · rw [if_pos hw, length_setN]
          exact h3
        · rw [if_neg hw]
          exact h3
  | none =>
      cases hemp : findEmpty s.pages with
      | some i =>
          have hnp : nth s.pages i = some (-1) := findEmpty_some_nth s.pages i hemp
          have hi : i < s.pages.length := nth_some_lt s.pages i (-1) hnp
          obtain ⟨dv, hnd⟩ := nth_of_lt s.dirty i (by omega)
          refine ⟨{ s with
              events := s.events + 1
              disk_reads := s.disk_reads + 1
              pages := setN s.pages i ((addr / PAGE_SIZE : ℕ) : ℤ)
              refbit := setN s.refbit i 1
              dirty := setN s.dirty i (if op = Op.W then 1 else 0)
              loc := s.loc ++ [(((addr / PAGE_SIZE : ℕ) : ℤ), i)]
              hand := (i + 1) % s.capacity },
            ?_, rfl, ?_, ?_, ?_, ?_⟩
          · simp only [ClockSim.access, hlk, hemp, hnp, hnd, if_true]
          · show (setN s.pages i ((addr / PAGE_SIZE : ℕ) : ℤ)).length = s.capacity
            rw [length_setN]
            exact h1
          · show (setN s.refbit i 1).length = s.capacity
            rw [length_setN]
            exact h2
          · show (setN s.dirty i (if op = Op.W then 1 else 0)).length = s.capacity
            rw [length_setN]
            exact h3
          · exact Nat.mod_lt _ hcap
      | none =>
          have hones : ones s.refbit ≤ 2 * s.capacity := by
            have := ones_le_length s.refbit
            omega
          obtain ⟨r, v, n, hscan, hn, hv, hrlen⟩ :=
            clockScan_some s.capacity hcap (2 * s.capacity) s.refbit s.hand h2 h4 hones
          obtain ⟨old, hnp⟩ := nth_of_lt s.pages v (by omega)
          obtain ⟨dv, hnd⟩ := nth_of_lt s.dirty v (by omega)
          have hold : old ≠ -1 := findEmpty_none_nth s.pages v old hemp hnp
          refine ⟨{ s with
              events := s.events + 1
              disk_reads := s.disk_reads + 1
              disk_writes := s.disk_writes + (if dv ≠ 0 then 1 else 0)
              pages := setN s.pages v ((addr / PAGE_SIZE : ℕ) : ℤ)
              refbit := setN r v 1
              dirty := setN s.dirty v (if op = Op.W then 1 else 0)
              loc := eraseKey old s.loc ++ [(((addr / PAGE_SIZE : ℕ) : ℤ), v)]
              hand := (v + 1) % s.capacity },
            ?_, rfl, ?_, ?_, ?_, ?_⟩
          · simp only [ClockSim.access, hlk, hemp, hscan, hnp, hnd, hold, if_false]
          · show (setN s.pages v ((addr / PAGE_SIZE : ℕ) : ℤ)).length = s.capacity
            rw [length_setN]
            exact h1
          · show (setN r v 1).length = s.capacity
            rw [length_setN]
            exact hrlen
          · show (setN s.dirty v (if op = Op.W then 1 else 0)).length = s.capacity
            rw [length_setN]
            exact h3
          · exact Nat.mod_lt _ hcap

/-- Along any run of `ClockSim` from a well-formed state, the state stays
well formed (in particular the frame array keeps `capacity` slots). -/
theorem ClockSim_run_shape :
    ∀ (tr : List (Op × ℕ)) (s s' : ClockSim), 0 < s.capacity →
      s.pages.length = s.capacity → s.refbit.length = s.capacity →
      s.dirty.length = s.capacity → s.hand < s.capacity →
      s.runFrom tr = some s' →
      s'.capacity = s.capacity ∧ s'.pages.length = s.capacity
  | [], s, s', hcap, h1, h2, h3, h4, h => by
      simp only [ClockSim.runFrom, Option.some.injEq] at h
      rw [← h]
      exact ⟨rfl, h1⟩
  | (op, a) :: tr, s, s', hcap, h1, h2, h3, h4, h => by
      simp only [ClockSim.runFrom] at h
      obtain ⟨s1, hacc1, hc, hp, hr, hd, hh⟩ := ClockSim_access_shape s op a hcap h1 h2 h3 h4
      rw [hacc1] at h
      have hrec := ClockSim_run_shape tr s1 s' (by rw [hc]; exact hcap)
        (by rw [hc]; exact hp) (by rw [hc]; exact hr) (by rw [hc]; exact hd)
        (by rw [hc]; exact hh) h
      exact ⟨hrec.1.trans hc, by rw [hrec.2, hc]⟩

/-- Below capacity, a `ClockSim` access never evicts: it succeeds, records
no write-back, and every previously resident page stays in the lookup. -/
theorem ClockSim_access_no_evict (s : ClockSim) (op : Op) (addr : ℕ)
    (h1 : s.pages.length = s.capacity) (h3 : s.dirty.length = s.capacity)
    (hocc : occupiedZ s.pages < s.capacity) :
    ∃ s', s.access op addr = some s' ∧ s'.disk_writes = s.disk_writes ∧
      ∀ p, (lookupKey p s.loc).isSome → (lookupKey p s'.loc).isSome := by
  cases hlk : lookupKey ((addr / PAGE_SIZE : ℕ) : ℤ) s.loc with
  | some idx =>
      refine ⟨{ s with
          events := s.events + 1
          refbit := setN s.refbit idx 1
          dirty := if op = Op.W then setN s.dirty idx 1 else s.dirty },
        ?_, rfl, ?_⟩
      · simp only [ClockSim.access, hlk]
      · intro p hp
        exact hp
  | none =>
      cases hemp : findEmpty s.pages with
      | none =>
          exfalso
          have := findEmpty_none_occupiedZ s.pages hemp
          omega
      | some i =>
          have hnp : nth s.pages i = some (-1) := findEmpty_some_nth s.pages i hemp
          have hi : i < s.pages.length := nth_some_lt s.pages i (-1) hnp
          obtain ⟨dv, hnd⟩ := nth_of_lt s.dirty i (by omega)
          refine ⟨{ s with
              events := s.events + 1
              disk_reads := s.disk_reads + 1
              pages := setN s.pages i ((addr / PAGE_SIZE : ℕ) : ℤ)
              refbit := setN s.refbit i 1
              dirty := setN s.dirty i (if op = Op.W then 1 else 0)
              loc := s.loc ++ [(((addr / PAGE_SIZE : ℕ) : ℤ), i)]
              hand := (i + 1) % s.capacity },
            ?_, rfl, ?_⟩
          · simp only [ClockSim.access, hlk, hemp, hnp, hnd, if_true]
          · intro p hp
            show (lookupKey p (s.loc ++ [(((addr / PAGE_SIZE : ℕ) : ℤ), i)])).isSome = true
            rw [lookupKey_append]
            cases he : lookupKey p s.loc with
            | some w => rfl
            | none => rw [he] at hp; simp at hp

end Memsim

/-- **C4.** For every policy, the residency set never exceeds `capacity`
pages at any step (`LRUSim`/`lruGo` frame dicts stay `≤ capacity`; the CLOCK
frame arrays of fixed length `capacity` hold `occupiedZ`/`occupied`
`≤ capacity` pages; FIFO memory stays `≤ capacity`), and an access evicts
only from a full residency set: the prac2 LRU, CLOCK and FIFO eviction
counters increment exactly when the page misses with the residency set at
exactly `capacity`, and below capacity an `LRUSim`/`ClockSim` access keeps
every resident page resident (and records no write-back). -/
theorem residency_bounded_eviction_only_when_full
    (cap : ℕ) (hcap : 0 < cap) (tr : List (Op × ℕ)) (ps : List ℕ)
    (sL : Memsim.LRUSim) (opL : Op) (addrL : ℕ) (hL : sL.frames.length < sL.capacity)
    (sC : Memsim.ClockSim) (opC : Op) (addrC : ℕ)
    (hC1 : sC.pages.length = sC.capacity) (hC3 : sC.dirty.length = sC.capacity)
    (hCocc : Memsim.occupiedZ sC.pages < sC.capacity)
    (last : List (ℕ × ℕ)) (stL : Prac2.Stats) (t pg : ℕ) (hlast : last.length ≤ cap)
    (frame : List (Option ℕ)) (refbit : List ℕ) (hand : ℕ) (stC : Prac2.Stats) (pgc : ℕ)
    (hfr : frame.length = cap) (hrb : refbit.length = cap) (hh : hand < cap)
    (memory : List ℕ) (hits misses evictions pF : ℕ) (hmem : memory.length ≤ cap) :
    (∀ s', (Memsim.LRUSim.init cap).runFrom tr = some s' → s'.frames.length ≤ cap) ∧
    (∃ s', sL.access opL addrL = some s' ∧ s'.disk_writes = sL.disk_writes ∧
      ∀ p, (lookupKey p sL.frames).isSome → (lookupKey p s'.frames).isSome) ∧
    (∀ s', (Memsim.ClockSim.init cap).runFrom tr = some s' →
      Memsim.occupiedZ s'.pages ≤ cap) ∧
    (∃ s', sC.access opC addrC = some s' ∧ s'.disk_writes = sC.disk_writes ∧
      ∀ p, (lookupKey p sC.loc).isSome → (lookupKey p s'.loc).isSome) ∧
    (∀ l' st', Prac2.lruGo cap last stL t ps = some (l', st') → l'.length ≤ cap) ∧
    (∃ l' st', Prac2.lruGo cap last stL t [pg] = some (l', st') ∧
      (st'.evictions = stL.evictions + 1 ↔
        lookupKey pg last = none ∧ last.length = cap)) ∧
    (∃ fr' rb' h' st', Prac2.clockGo cap frame refbit hand stC [pgc] =
        some (fr', rb', h', st') ∧
      (st'.evictions = stC.evictions + 1 ↔
        Prac2.findHit pgc frame = none ∧ Prac2.occupied frame = cap) ∧
      Prac2.occupied frame ≤ cap) ∧
    (∃ mem' h' m' e', Prac2.fifoGo cap memory hits misses evictions [pF] =
        some (mem', h', m', e') ∧
      (e' = evictions + 1 ↔ pF ∉ memory ∧ memory.length = cap) ∧
      mem'.length ≤ cap) := by
  refine ⟨?_, ?_, ?_, ?_, ?_, ?_, ?_, ?_⟩
  · intro s' hrun
    obtain ⟨-, hlen⟩ := Memsim.LRUSim_run_len_le tr (Memsim.LRUSim.init cap) s'
      (by simp [Memsim.LRUSim.init]) hrun
    simpa [Memsim.LRUSim.init] using hlen
  · obtain ⟨s', ha, -, hw, hres⟩ := Memsim.LRUSim_access_no_evict sL opL addrL hL
    exact ⟨s', ha, hw, hres⟩
  · intro s' hrun
    have hshape := Memsim.ClockSim_run_shape tr (Memsim.ClockSim.init cap) s'
      hcap (by simp [Memsim.ClockSim.init]) (by simp [Memsim.ClockSim.init])
      (by simp [Memsim.ClockSim.init]) (by simp [Memsim.ClockSim.init]; omega) hrun
    obtain ⟨-, hlen⟩ := hshape
    simp only [Memsim.ClockSim.init] at hlen
    have := Memsim.occupiedZ_le_length s'.pages
    omega
  · exact Memsim.ClockSim_access_no_evict sC opC addrC hC1 hC3 hCocc
  · intro l' st' h
    exact Prac2.lruGo_len_le cap ps last stL t l' st' hlast h
  · exact Prac2.lruGo_step_eviction cap hcap last stL t pg hlast
  · exact Prac2.clockGo_step_eviction cap frame refbit hand stC pgc hfr hrb hh
  · exact Prac2.fifoGo_step_eviction cap hcap memory hits misses evictions pF hmem

/-- Witness for `residency_bounded_eviction_only_when_full` at capacity 3
with concrete states below and at capacity. -/
theorem residency_bounded_eviction_only_when_full_witness :
    (0 < 3 ∧
      Memsim.lruTwoResident.frames.length < Memsim.lruTwoResident.capacity ∧
      Memsim.clockTwoResident.pages.length = Memsim.clockTwoResident.capacity ∧
      Memsim.clockTwoResident.dirty.length = Memsim.clockTwoResident.capacity ∧
      Memsim.occupiedZ Memsim.clockTwoResident.pages < Memsim.clockTwoResident.capacity ∧
      ([(1, 0), (2, 1)] : List (ℕ × ℕ)).length ≤ 3 ∧
      ([some 1, none, none] : List (Option ℕ)).length = 3 ∧
      ([1, 0, 0] : List ℕ).length = 3 ∧ 0 < 3 ∧
      ([1, 2] : List ℕ).length ≤ 3) ∧
    ((∀ s', (Memsim.LRUSim.init 3).runFrom Memsim.traceLRU = some s' →
        s'.frames.length ≤ 3) ∧
      (∃ s', Memsim.lruTwoResident.access Op.R (5 * Memsim.PAGE_SIZE) = some s' ∧
        s'.disk_writes = Memsim.lruTwoResident.disk_writes ∧
        ∀ p, (lookupKey p Memsim.lruTwoResident.frames).isSome →
          (lookupKey p s'.frames).isSome) ∧
      (∀ s', (Memsim.ClockSim.init 3).runFrom Memsim.traceLRU = some s' →
        Memsim.occupiedZ s'.pages ≤ 3) ∧
      (∃ s', Memsim.clockTwoResident.access Op.W (5 * Memsim.PAGE_SIZE) = some s' ∧
        s'.disk_writes = Memsim.clockTwoResident.disk_writes ∧
        ∀ p, (lookupKey p Memsim.clockTwoResident.loc).isSome →
          (lookupKey p s'.loc).isSome) ∧
      (∀ l' st', Prac2.lruGo 3 [(1, 0), (2, 1)] Prac2.Stats.init 2 [1, 2] =
          some (l', st') → l'.length ≤ 3) ∧
      (∃ l' st', Prac2.lruGo 3 [(1, 0), (2, 1)] Prac2.Stats.init 2 [5] =
          some (l', st') ∧
        (st'.evictions = Prac2.Stats.init.evictions + 1 ↔
          lookupKey 5 [(1, 0), (2, 1)] = none ∧
            ([(1, 0), (2, 1)] : List (ℕ × ℕ)).length = 3)) ∧
      (∃ fr' rb' h' st', Prac2.clockGo 3 [some 1, none, none] [1, 0, 0] 0
          Prac2.Stats.init [2] = some (fr', rb', h', st') ∧
        (st'.evictions = Prac2.Stats.init.evictions + 1 ↔
          Prac2.findHit 2 [some 1, none, none] = none ∧
            Prac2.occupied [some 1, none, none] = 3) ∧
        Prac2.occupied [some 1, none, none] ≤ 3) ∧
      (∃ mem' h' m' e', Prac2.fifoGo 3 [1, 2] 1 2 0 [7] =
          some (mem', h', m', e') ∧
        (e' = 0 + 1 ↔ 7 ∉ ([1, 2] : List ℕ) ∧ ([1, 2] : List ℕ).length = 3) ∧
        mem'.length ≤ 3)) :=
  ⟨⟨by decide, by decide, by decide, by decide, by decide, by decide, by decide,
    by decide, by decide, by decide⟩,
    residency_bounded_eviction_only_when_full 3 (by decide) Memsim.traceLRU [1, 2]
      Memsim.lruTwoResident Op.R (5 * Memsim.PAGE_SIZE) (by decide)
      Memsim.clockTwoResident Op.W (5 * Memsim.PAGE_SIZE) (by decide) (by decide)
      (by decide)
      [(1, 0), (2, 1)] Prac2.Stats.init 2 5 (by decide)
      [some 1, none, none] [1, 0, 0] 0 Prac2.Stats.init 2 (by decide) (by decide)
      (by decide)
      [1, 2] 1 2 0 7 (by decide)⟩

/-- **C8.** Write-back accounting for the `memsim.py` engines, by exhaustive
case analysis of an access: an LRU or CLOCK hit records no write-back (and a
write hit sets the entry's dirty flag); a miss that still finds room records
no write-back and installs the page with dirty = (op = Write); a miss that
evicts records exactly one write-back when the victim's dirty flag is set
and zero when it is clean. These are all the paths of `access`, so
write-backs happen at no other time, and the dirty flag is set exactly by
loading with a write or writing while resident. -/
theorem writeback_exactly_on_dirty_eviction
    (s1 : Memsim.LRUSim) (op1 : Op) (a1 : ℕ) (d1 : Bool)
    (h1 : lookupKey (a1 / Memsim.PAGE_SIZE) s1.frames = some d1)
    (s2 : Memsim.LRUSim) (op2 : Op) (a2 : ℕ)
    (h2 : lookupKey (a2 / Memsim.PAGE_SIZE) s2.frames = none)
    (h2c : s2.frames.length < s2.capacity)
    (s3 : Memsim.LRUSim) (op3 : Op) (a3 : ℕ) (q3 : ℕ) (d3 : Bool)
    (rest3 : List (ℕ × Bool))
    (h3 : lookupKey (a3 / Memsim.PAGE_SIZE) s3.frames = none)
    (h3c : s3.capacity ≤ s3.frames.length)
    (h3f : s3.frames = (q3, d3) :: rest3)
    (c1 : Memsim.ClockSim) (opc1 : Op) (b1 : ℕ) (i1 : ℕ)
    (hc1 : lookupKey ((b1 / Memsim.PAGE_SIZE : ℕ) : ℤ) c1.loc = some i1)
    (c2 : Memsim.ClockSim) (opc2 : Op) (b2 : ℕ)
    (hc2p : c2.pages.length = c2.capacity) (hc2d : c2.dirty.length = c2.capacity)
    (hc2 : Memsim.occupiedZ c2.pages < c2.capacity)
    (c3 : Memsim.ClockSim) (opc3 : Op) (b3 : ℕ) (r3 : List ℕ) (v3 n3 dv3 : ℕ)
    (hc3lk : lookupKey ((b3 / Memsim.PAGE_SIZE : ℕ) : ℤ) c3.loc = none)
    (hc3emp : Memsim.findEmpty c3.pages = none)
    (hc3scan : Memsim.clockScan c3.capacity c3.refbit c3.hand
      (2 * c3.capacity + 1) = some (r3, v3, n3))
    (hc3d : Memsim.nth c3.dirty v3 = some dv3) (hc3v : v3 < c3.pages.length) :
    (∃ s', s1.access op1 a1 = some s' ∧ s'.disk_writes = s1.disk_writes ∧
      s'.frames = eraseKey (a1 / Memsim.PAGE_SIZE) s1.frames ++
        [(a1 / Memsim.PAGE_SIZE, if op1 = Op.W then true else d1)]) ∧
    (∃ s', s2.access op2 a2 = some s' ∧ s'.disk_writes = s2.disk_writes ∧
      s'.frames = s2.frames ++ [(a2 / Memsim.PAGE_SIZE, decide (op2 = Op.W))]) ∧
    (∃ s', s3.access op3 a3 = some s' ∧
      s'.disk_writes = s3.disk_writes + (if d3 then 1 else 0) ∧
      s'.frames = rest3 ++ [(a3 / Memsim.PAGE_SIZE, decide (op3 = Op.W))]) ∧
    (∃ s', c1.access opc1 b1 = some s' ∧ s'.disk_writes = c1.disk_writes ∧
      s'.dirty = (if opc1 = Op.W then setN c1.dirty i1 1 else c1.dirty)) ∧
    (∃ s', c2.access opc2 b2 = some s' ∧ s'.disk_writes = c2.disk_writes) ∧
    (∃ s', c3.access opc3 b3 = some s' ∧
      s'.disk_writes = c3.disk_writes + (if dv3 ≠ 0 then 1 else 0)) := by
  refine ⟨?_, ?_, ?_, ?_, ?_, ?_⟩
  · refine ⟨{ s1 with
        events := s1.events + 1
        frames := eraseKey (a1 / Memsim.PAGE_SIZE) s1.frames ++
          [(a1 / Memsim.PAGE_SIZE, if op1 = Op.W then true else d1)] },
      ?_, rfl, rfl⟩
    simp only [Memsim.LRUSim.access, h1]
  · have hc : ¬ s2.capacity ≤ s2.frames.length := Nat.not_le.mpr h2c
    refine ⟨{ s2 with
        events := s2.events + 1
        disk_reads := s2.disk_reads + 1
        frames := s2.frames ++ [(a2 / Memsim.PAGE_SIZE, decide (op2 = Op.W))] },
      ?_, rfl, rfl⟩
    simp only [Memsim.LRUSim.access, h2]
    rw [if_neg hc]
  · refine ⟨{ s3 with
        events := s3.events + 1
        disk_reads := s3.disk_reads + 1
        disk_writes := s3.disk_writes + (if d3 then 1 else 0)
        frames := rest3 ++ [(a3 / Memsim.PAGE_SIZE, decide (op3 = Op.W))] },
      ?_, rfl, rfl⟩
    simp only [Memsim.LRUSim.access, h3]
    rw [h3f]
    rw [if_pos (h3f ▸ h3c)]
  · refine ⟨{ c1 with
        events := c1.events + 1
        refbit := setN c1.refbit i1 1
        dirty := if opc1 = Op.W then setN c1.dirty i1 1 else c1.dirty },
      ?_, rfl, rfl⟩
    simp only [Memsim.ClockSim.access, hc1]
  · obtain ⟨s', hacc, hw, -⟩ :=
      Memsim.ClockSim_access_no_evict c2 opc2 b2 hc2p hc2d hc2
    exact ⟨s', hacc, hw⟩
  · obtain ⟨old, hnp⟩ := Memsim.nth_of_lt c3.pages v3 hc3v
    have hold : old ≠ -1 := Memsim.findEmpty_none_nth c3.pages v3 old hc3emp hnp
    refine ⟨{ c3 with
        events := c3.events + 1
        disk_reads := c3.disk_reads + 1
        disk_writes := c3.disk_writes + (if dv3 ≠ 0 then 1 else 0)
        pages := setN c3.pages v3 ((b3 / Memsim.PAGE_SIZE : ℕ) : ℤ)
        refbit := setN r3 v3 1
        dirty := setN c3.dirty v3 (if opc3 = Op.W then 1 else 0)
        loc := eraseKey old c3.loc ++ [(((b3 / Memsim.PAGE_SIZE : ℕ) : ℤ), v3)]
        hand := (v3 + 1) % c3.capacity },
      ?_, rfl⟩
    simp only [Memsim.ClockSim.access, hc3lk, hc3emp, hc3scan, hnp, hc3d, hold, if_false]

/-- Witness for `writeback_exactly_on_dirty_eviction`: concrete LRU and
CLOCK states exercising hit, miss-with-room and dirty-eviction paths. -/
theorem writeback_exactly_on_dirty_eviction_witness :
    (lookupKey ((1 * Memsim.PAGE_SIZE) / Memsim.PAGE_SIZE)
        Memsim.lruTwoResident.frames = some false ∧
      lookupKey ((5 * Memsim.PAGE_SIZE) / Memsim.PAGE_SIZE)
        Memsim.lruTwoResident.frames = none ∧
      Memsim.lruTwoResident.frames.length < Memsim.lruTwoResident.capacity ∧
      lookupKey ((5 * Memsim.PAGE_SIZE) / Memsim.PAGE_SIZE)
        Memsim.lruThreeResident.frames = none ∧
      Memsim.lruThreeResident.capacity ≤ Memsim.lruThreeResident.frames.length ∧
      Memsim.lruThreeResident.frames = (1, true) :: [(2, false), (3, false)] ∧
      lookupKey (((2 * Memsim.PAGE_SIZE) / Memsim.PAGE_SIZE : ℕ) : ℤ)
        Memsim.clockTwoResident.loc = some 1 ∧
      Memsim.clockTwoResident.pages.length = Memsim.clockTwoResident.capacity ∧
      Memsim.clockTwoResident.dirty.length = Memsim.clockTwoResident.capacity ∧
      Memsim.occupiedZ Memsim.clockTwoResident.pages < Memsim.clockTwoResident.capacity ∧
      lookupKey (((5 * Memsim.PAGE_SIZE) / Memsim.PAGE_SIZE : ℕ) : ℤ)
        Memsim.clockThreeResident.loc = none ∧
      Memsim.findEmpty Memsim.clockThreeResident.pages = none ∧
      Memsim.clockScan Memsim.clockThreeResident.capacity
          Memsim.clockThreeResident.refbit Memsim.clockThreeResident.hand
          (2 * Memsim.clockThreeResident.capacity + 1) = some ([0, 0, 1], 1, 1) ∧
      Memsim.nth Memsim.clockThreeResident.dirty 1 = some 1 ∧
      1 < Memsim.clockThreeResident.pages.length) ∧
    ((∃ s', Memsim.lruTwoResident.access Op.W (1 * Memsim.PAGE_SIZE) = some s' ∧
        s'.disk_writes = Memsim.lruTwoResident.disk_writes ∧
        s'.frames = eraseKey ((1 * Memsim.PAGE_SIZE) / Memsim.PAGE_SIZE)
            Memsim.lruTwoResident.frames ++
          [((1 * Memsim.PAGE_SIZE) / Memsim.PAGE_SIZE,
            if Op.W = Op.W then true else false)]) ∧
      (∃ s', Memsim.lruTwoResident.access Op.R (5 * Memsim.PAGE_SIZE) = some s' ∧
        s'.disk_writes = Memsim.lruTwoResident.disk_writes ∧
        s'.frames = Memsim.lruTwoResident.frames ++
          [((5 * Memsim.PAGE_SIZE) / Memsim.PAGE_SIZE, decide (Op.R = Op.W))]) ∧
      (∃ s', Memsim.lruThreeResident.access Op.R (5 * Memsim.PAGE_SIZE) = some s' ∧
        s'.disk_writes = Memsim.lruThreeResident.disk_writes + (if true then 1 else 0) ∧
        s'.frames = [(2, false), (3, false)] ++
          [((5 * Memsim.PAGE_SIZE) / Memsim.PAGE_SIZE, decide (Op.R = Op.W))]) ∧
      (∃ s', Memsim.clockTwoResident.access Op.W (2 * Memsim.PAGE_SIZE) = some s' ∧
        s'.disk_writes = Memsim.clockTwoResident.disk_writes ∧
        s'.dirty = (if Op.W = Op.W then setN Memsim.clockTwoResident.dirty 1 1
          else Memsim.clockTwoResident.dirty)) ∧
      (∃ s', Memsim.clockTwoResident.access Op.R (5 * Memsim.PAGE_SIZE) = some s' ∧
        s'.disk_writes = Memsim.clockTwoResident.disk_writes) ∧
      (∃ s', Memsim.clockThreeResident.access Op.R (5 * Memsim.PAGE_SIZE) = some s' ∧
        s'.disk_writes = Memsim.clockThreeResident.disk_writes +
          (if (1 : ℕ) ≠ 0 then 1 else 0))) :=
  ⟨⟨by decide, by decide, by decide, by decide, by decide, by decide, by decide,
    by decide, by decide, by decide, by decide, by decide, by decide, by decide,
    by decide⟩,
    writeback_exactly_on_dirty_eviction
      Memsim.lruTwoResident Op.W (1 * Memsim.PAGE_SIZE) false (by decide)
      Memsim.lruTwoResident Op.R (5 * Memsim.PAGE_SIZE) (by decide) (by decide)
      Memsim.lruThreeResident Op.R (5 * Memsim.PAGE_SIZE) 1 true
        [(2, false), (3, false)] (by decide) (by decide) (by decide)
      Memsim.clockTwoResident Op.W (2 * Memsim.PAGE_SIZE) 1 (by decide)
      Memsim.clockTwoResident Op.R (5 * Memsim.PAGE_SIZE) (by decide) (by decide)
        (by decide)
      Memsim.clockThreeResident Op.R (5 * Memsim.PAGE_SIZE) [0, 0, 1] 1 1 1
        (by decide) (by decide) (by decide) (by decide) (by decide)⟩

/-! ## Lemmas for the LRU implementation equivalence -/

namespace Memsim

theorem lookupKey_isSome_iff {κ α : Type} [DecidableEq κ] (k : κ) :
    ∀ l : List (κ × α), (lookupKey k l).isSome ↔ k ∈ l.map Prod.fst
  | [] => by simp [lookupKey]
  | (q, v) :: rest => by
      by_cases hq : q = k
      · subst hq
        simp [lookupKey]
      · simp only [lookupKey, if_neg hq, List.map_cons, List.mem_cons]
        rw [lookupKey_isSome_iff k rest]
        constructor
        · exact Or.inr
        · rintro (h | h)
          · exact absurd h.symm hq
          · exact h

theorem mem_of_lookupKey {κ α : Type} [DecidableEq κ] (k : κ) (v : α) :
    ∀ l : List (κ × α), lookupKey k l = some v → (k, v) ∈ l
  | [], h => by cases h
  | (q, w) :: rest, h => by
      by_cases hq : q = k
      · subst hq
        have hwv : w = v := by simpa [lookupKey] using h
        subst hwv
        exact List.mem_cons_self _ _
      · simp only [lookupKey, if_neg hq] at h
        exact List.mem_cons_of_mem _ (mem_of_lookupKey k v rest h)

theorem lookupKey_of_mem_nodup {κ α : Type} [DecidableEq κ] {k : κ} {v : α} :
    ∀ {l : List (κ × α)}, (l.map Prod.fst).Nodup → (k, v) ∈ l →
      lookupKey k l = some v
  | [], _, hm => by cases hm
  | (q, w) :: rest, hnd, hm => by
      rcases List.mem_cons.mp hm with h1 | h2
      · injection h1 with h1a h1b
        subst h1a
        subst h1b
        simp [lookupKey]
      · by_cases hq : q = k
        · exfalso
          subst hq
          have : q ∈ rest.map Prod.fst :=
            List.mem_map.mpr ⟨(q, v), h2, rfl⟩
          simp only [List.map_cons, List.nodup_cons] at hnd
          exact hnd.1 this
        · simp only [lookupKey, if_neg hq]
          have hnd' : (rest.map Prod.fst).Nodup := by
            simp only [List.map_cons, List.nodup_cons] at hnd
            exact hnd.2
          exact lookupKey_of_mem_nodup hnd' h2

theorem lookupKey_setVal_self {κ : Type} [DecidableEq κ] (p : κ) (t : ℕ) :
    ∀ l : List (κ × ℕ), (lookupKey p l).isSome →
      lookupKey p (setVal p t l) = some t
  | [], h => by simp [lookupKey] at h
  | (q, v) :: rest, h => by
      by_cases hq : q = p
      · subst hq
        simp [setVal, lookupKey]
      · simp only [lookupKey, if_neg hq] at h
        simp only [setVal, if_neg hq, lookupKey, if_neg hq]
        exact lookupKey_setVal_self p t rest h

theorem lookupKey_setVal_ne {κ : Type} [DecidableEq κ] {p q : κ} (t : ℕ)
    (hne : q ≠ p) :
    ∀ l : List (κ × ℕ), lookupKey q (setVal p t l) = lookupKey q l
  | [] => rfl
  | (k, v) :: rest => by
      by_cases hk : k = p
      · subst hk
        have hkq : ¬ k = q := fun h => hne (h ▸ rfl)
        simp [setVal, lookupKey, hkq]
      · by_cases hkq : k = q
        · simp [setVal, hk, lookupKey, hkq, hne]
        · simp [setVal, hk, lookupKey, hkq, lookupKey_setVal_ne t hne rest]

theorem map_fst_setVal {κ : Type} [DecidableEq κ] (p : κ) (t : ℕ) :
    ∀ l : List (κ × ℕ), (setVal p t l).map Prod.fst = l.map Prod.fst
  | [] => rfl
  | (k, v) :: rest => by
      by_cases hk : k = p <;> simp [setVal, hk, map_fst_setVal p t rest]

theorem mem_setVal {κ : Type} [DecidableEq κ] (p : κ) (t : ℕ) :
    ∀ (l : List (κ × ℕ)) (pv : κ × ℕ), pv ∈ setVal p t l →
      pv.2 = t ∨ pv ∈ l
  | [], pv, h => by cases h
  | (k, v) :: rest, pv, h => by
      by_cases hk : k = p
      · simp only [setVal, if_pos hk] at h
        rcases List.mem_cons.mp h with h1 | h2
        · subst h1
          exact Or.inl rfl
        · exact Or.inr (List.mem_cons_of_mem _ h2)
      · simp only [setVal, if_neg hk] at h
        rcases List.mem_cons.mp h with h1 | h2
        · subst h1
          exact Or.inr (List.mem_cons_self _ _)
        · rcases mem_setVal p t rest pv h2 with h3 | h3
          · exact Or.inl h3
          · exact Or.inr (List.mem_cons_of_mem _ h3)

theorem eraseKey_sublist {κ α : Type} [DecidableEq κ] (p : κ) :
    ∀ l : List (κ × α), List.Sublist (eraseKey p l) l
  | [] => List.Sublist.refl _
  | (q, v) :: rest => by
      by_cases hq : q = p
      · simp only [eraseKey, if_pos hq]
        exact List.Sublist.cons _ (List.Sublist.refl _)
      · simp only [eraseKey, if_neg hq]
        exact List.Sublist.cons₂ _ (eraseKey_sublist p rest)

theorem lookupKey_eraseKey_self_of_nodup {κ α : Type} [DecidableEq κ] (p : κ) :
    ∀ l : List (κ × α), (l.map Prod.fst).Nodup →
      lookupKey p (eraseKey p l) = none
  | [], _ => rfl
  | (q, v) :: rest, hnd => by
      simp only [List.map_cons, List.nodup_cons] at hnd
      by_cases hq : q = p
      · subst hq
        have herase : eraseKey q ((q, v) :: rest) = rest := by simp [eraseKey]
        rw [herase]
        cases he : lookupKey q rest with
        | none => rfl
        | some w =>
            exfalso
            have : q ∈ rest.map Prod.fst :=
              (lookupKey_isSome_iff q rest).mp (by rw [he]; rfl)
            exact hnd.1 this
      · simp only [eraseKey, if_neg hq, lookupKey, if_neg hq]
        exact lookupKey_eraseKey_self_of_nodup p rest hnd.2

theorem pairwise_imp_mem {α : Type} {R S : α → α → Prop} :
    ∀ {l : List α}, (∀ a ∈ l, ∀ b ∈ l, R a b → S a b) → l.Pairwise R →
      l.Pairwise S
  | [], _, _ => List.Pairwise.nil
  | a :: l, himp, hp => by
      rw [List.pairwise_cons] at hp ⊢
      refine ⟨?_, ?_⟩
      · intro b hb
        exact himp a (List.mem_cons_self _ _) b (List.mem_cons_of_mem _ hb)
          (hp.1 b hb)
      · exact pairwise_imp_mem
          (fun x hx y hy => himp x (List.mem_cons_of_mem _ hx) y
            (List.mem_cons_of_mem _ hy)) hp.2

end Memsim

namespace Prac2

open Memsim

/-- When the resident pages listed in LRU order have strictly increasing
timestamps, Python's `min` over the timestamp dict picks exactly the
least-recently-used page (the head of the order). -/
theorem pyMin_head (last : List (ℕ × ℕ)) (h : ℕ) (L' : List ℕ)
    (hkeys : ∀ p : ℕ, p ∈ h :: L' ↔ (lookupKey p last).isSome)
    (hnodk : (last.map Prod.fst).Nodup)
    (hpair : (h :: L').Pairwise fun p q => valOf last p < valOf last q) :
    pyMin last = some (h, valOf last h) := by
  have hh : (lookupKey h last).isSome = true := (hkeys h).mp (List.mem_cons_self _ _)
  cases hl : last with
  | nil =>
      rw [hl] at hh
      simp [lookupKey] at hh
  | cons x xs =>
      subst hl
      obtain ⟨m1, m2, hm⟩ : ∃ a b, pyMinVal x xs = (a, b) := ⟨_, _, rfl⟩
      have hmem : (m1, m2) ∈ x :: xs := hm ▸ pyMinVal_mem x xs
      have hle : ∀ y ∈ x :: xs, m2 ≤ y.2 := by
        intro y hy
        have := pyMinVal_le x xs y hy
        rw [hm] at this
        exact this
      have hlkm : lookupKey m1 (x :: xs) = some m2 :=
        lookupKey_of_mem_nodup hnodk hmem
      have hmemL : m1 ∈ h :: L' := (hkeys m1).mpr (by rw [hlkm]; rfl)
      obtain ⟨vh, hvh⟩ := Option.isSome_iff_exists.mp hh
      have hvalh : valOf (x :: xs) h = vh := by rw [valOf, hvh]; rfl
      rcases List.mem_cons.mp hmemL with he | htail
      · subst he
        show some (pyMinVal x xs) = _
        rw [hm]
        have : valOf (x :: xs) m1 = m2 := by rw [valOf, hlkm]; rfl
        rw [this]
      · exfalso
        have hpc := (List.pairwise_cons.mp hpair).1 m1 htail
        have hvalm : valOf (x :: xs) m1 = m2 := by rw [valOf, hlkm]; rfl
        rw [hvalm, hvalh] at hpc
        have hmemh : (h, vh) ∈ x :: xs := mem_of_lookupKey h vh (x :: xs) hvh
        have := hle (h, vh) hmemh
        omega

end Prac2

namespace Prac2

open Memsim

/-- One synchronized step of the two LRU implementations: from related
states, the OrderedDict engine's access succeeds, the timestamp engine's
loop takes the corresponding branch, and the states are related again. -/
theorem lru_sync_step (cap : ℕ) (hcap : 0 < cap)
    (s : Memsim.LRUSim) (last : List (ℕ × ℕ)) (st : Stats) (t pg : ℕ)
    (hrel : LruRel cap s last st t) :
    ∃ s' last' st', s.access Op.R (pg * Memsim.PAGE_SIZE) = some s' ∧
      (∀ rest, lruGo cap last st t (pg :: rest) = lruGo cap last' st' (t + 1) rest) ∧
      LruRel cap s' last' st' (t + 1) := by
  obtain ⟨hc, hndL, hndK, hmem, hlen, hvals, hpair, hreads, hev⟩ := hrel
  have hpg : pg * Memsim.PAGE_SIZE / Memsim.PAGE_SIZE = pg :=
    Nat.mul_div_cancel pg (by norm_num [Memsim.PAGE_SIZE])
  have hvalsL : ∀ q ∈ s.frames.map Prod.fst, valOf last q < t := by
    intro q hqL
    obtain ⟨vq, hvq⟩ := Option.isSome_iff_exists.mp ((hmem q).mp hqL)
    have hmemq : (q, vq) ∈ last := mem_of_lookupKey q vq last hvq
    have := hvals _ hmemq
    rw [valOf, hvq]
    exact this
  cases hlk : lookupKey pg last with
  | some v =>
      -- hit in both implementations
      have hinL : pg ∈ s.frames.map Prod.fst := (hmem pg).mpr (by rw [hlk]; rfl)
      obtain ⟨d, hd⟩ :=
        Option.isSome_iff_exists.mp ((lookupKey_isSome_iff pg s.frames).mpr hinL)
      have hsub : List.Sublist (eraseKey pg s.frames) s.frames :=
        eraseKey_sublist pg s.frames
      have hsubK : List.Sublist ((eraseKey pg s.frames).map Prod.fst)
          (s.frames.map Prod.fst) := hsub.map Prod.fst
      have hndE : ((eraseKey pg s.frames).map Prod.fst).Nodup := hndL.sublist hsubK
      have hpgK : pg ∉ (eraseKey pg s.frames).map Prod.fst := by
        intro hmemK
        have h2 := (lookupKey_isSome_iff pg (eraseKey pg s.frames)).mpr hmemK
        rw [lookupKey_eraseKey_self_of_nodup pg s.frames hndL] at h2
        simp at h2
      have hKmem : ∀ q : ℕ, q ≠ pg →
          (q ∈ (eraseKey pg s.frames).map Prod.fst ↔ q ∈ s.frames.map Prod.fst) := by
        intro q hq
        rw [← lookupKey_isSome_iff, ← lookupKey_isSome_iff, lookupKey_eraseKey_ne hq]
      have hKsame : ∀ q : ℕ, q ≠ pg →
          lookupKey q (setVal pg t last) = lookupKey q last :=
        fun q hq => lookupKey_setVal_ne t hq last
      have hKself : lookupKey pg (setVal pg t last) = some t :=
        lookupKey_setVal_self pg t last (by rw [hlk]; rfl)
      refine ⟨{ s with
          events := s.events + 1
          frames := eraseKey pg s.frames ++ [(pg, if Op.R = Op.W then true else d)] },
        setVal pg t last,
        ⟨st.references + 1, st.hits + 1, st.misses, st.evictions⟩,
        ?_, ?_, ?_⟩
      · simp only [Memsim.LRUSim.access, hpg, hd]
      · intro rest
        simp only [lruGo, hlk, Option.isSome_some, if_true]
      · refine ⟨hc, ?_, ?_, ?_, ?_, ?_, ?_, hreads, by
          show s.events + 1 = st.references + 1
          omega⟩
        · show ((eraseKey pg s.frames ++
            [(pg, if Op.R = Op.W then true else d)]).map Prod.fst).Nodup
          rw [List.map_append, List.nodup_append]
          refine ⟨hndE, by simp, ?_⟩
          intro a ha hb
          simp only [List.map_cons, List.map_nil, List.mem_singleton] at hb
          exact hpgK (hb ▸ ha)
        · rw [map_fst_setVal]
          exact hndK
        · intro q
          show q ∈ (eraseKey pg s.frames ++
              [(pg, if Op.R = Op.W then true else d)]).map Prod.fst ↔ _
          rw [List.map_append]
          simp only [List.map_cons, List.map_nil, List.mem_append, List.mem_singleton]
          by_cases hq : q = pg
          · subst hq
            rw [hKself]
            simp
          · rw [hKsame q hq]
            rw [hKmem q hq]
            constructor
            · rintro (h | h)
              · exact (hmem q).mp h
              · exact absurd h hq
            · intro h
              exact Or.inl ((hmem q).mpr h)
        · show (setVal pg t last).length = (eraseKey pg s.frames ++
            [(pg, if Op.R = Op.W then true else d)]).length
          have he := length_eraseKey_of_isSome pg s.frames (by rw [hd]; rfl)
          rw [length_setVal]
          simp only [List.length_append, List.length_cons, List.length_nil]
          omega
        · intro pv hpv
          rcases mem_setVal pg t last pv hpv with h | h
          · omega
          · have := hvals pv h
            omega
        · show ((eraseKey pg s.frames ++
            [(pg, if Op.R = Op.W then true else d)]).map Prod.fst).Pairwise _
          rw [List.map_append, List.pairwise_append]
          refine ⟨?_, by simp, ?_⟩
          · have hpE : ((eraseKey pg s.frames).map Prod.fst).Pairwise
                (fun p q => valOf last p < valOf last q) := hpair.sublist hsubK
            refine pairwise_imp_mem ?_ hpE
            intro a ha b hb hab
            have hane : a ≠ pg := fun h => hpgK (h ▸ ha)
            have hbne : b ≠ pg := fun h => hpgK (h ▸ hb)
            rw [valOf, valOf, hKsame a hane, hKsame b hbne]
            exact hab
          · intro a ha b hb
            simp only [List.map_cons, List.map_nil, List.mem_singleton] at hb
            rw [hb]
            have hane : a ≠ pg := fun h => hpgK (h ▸ ha)
            have haL : a ∈ s.frames.map Prod.fst := (hKmem a hane).mp ha
            rw [valOf, valOf, hKsame a hane, hKself]
            have := hvalsL a haL
            rw [valOf] at this
            show (lookupKey a last).getD 0 < (some t).getD 0
            simpa using this
  | none =>
      -- miss in both implementations
      have hninL : pg ∉ s.frames.map Prod.fst := by
        intro h
        have := (hmem pg).mp h
        rw [hlk] at this
        simp at this
      have hfrN : lookupKey pg s.frames = none := by
        cases hf : lookupKey pg s.frames with
        | none => rfl
        | some w =>
            exfalso
            exact hninL ((lookupKey_isSome_iff pg s.frames).mp (by rw [hf]; rfl))
      by_cases hlt : last.length < cap
      · -- room left: plain insertion on both sides
        have hflt : ¬ s.capacity ≤ s.frames.length := by
          rw [hc, ← hlen]
          omega
        have hKapp : ∀ q : ℕ, q ≠ pg →
            lookupKey q (last ++ [(pg, t)]) = lookupKey q last := by
          intro q hq
          rw [lookupKey_append]
          cases he : lookupKey q last with
          | some w => rfl
          | none => simp [lookupKey, Ne.symm hq]
        have hKapp0 : lookupKey pg (last ++ [(pg, t)]) = some t := by
          rw [lookupKey_append, hlk]
          simp [lookupKey]
        refine ⟨{ s with
            events := s.events + 1
            disk_reads := s.disk_reads + 1
            frames := s.frames ++ [(pg, decide (Op.R = Op.W))] },
          last ++ [(pg, t)],
          ⟨st.references + 1, st.hits, st.misses + 1, st.evictions⟩,
          ?_, ?_, ?_⟩
        · simp only [Memsim.LRUSim.access, hpg, hfrN]
          rw [if_neg hflt]
        · intro rest
          simp only [lruGo, hlk, Option.isSome_none, Bool.false_eq_true, if_false,
            if_pos hlt]
        · refine ⟨hc, ?_, ?_, ?_, ?_, ?_, ?_, by
            show s.disk_reads + 1 = st.misses + 1
            omega, by
            show s.events + 1 = st.references + 1
            omega⟩
          · show ((s.frames ++ [(pg, decide (Op.R = Op.W))]).map Prod.fst).Nodup
            rw [List.map_append, List.nodup_append]
            refine ⟨hndL, by simp, ?_⟩
            intro a ha hb
            simp only [List.map_cons, List.map_nil, List.mem_singleton] at hb
            exact hninL (hb ▸ ha)
          · show ((last ++ [(pg, t)]).map Prod.fst).Nodup
            rw [List.map_append, List.nodup_append]
            refine ⟨hndK, by simp, ?_⟩
            intro a ha hb
            simp only [List.map_cons, List.map_nil, List.mem_singleton] at hb
            have hsome := (lookupKey_isSome_iff a last).mpr ha
            rw [hb, hlk] at hsome
            simp at hsome
          · intro q
            show q ∈ (s.frames ++ [(pg, decide (Op.R = Op.W))]).map Prod.fst ↔ _
            rw [List.map_append]
            simp only [List.map_cons, List.map_nil, List.mem_append, List.mem_singleton]
            by_cases hq : q = pg
            · subst hq
              rw [hKapp0]
              simp
            · rw [hKapp q hq]
              constructor
              · rintro (h | h)
                · exact (hmem q).mp h
                · exact absurd h hq
              · intro h
                exact Or.inl ((hmem q).mpr h)
          · show (last ++ [(pg, t)]).length =
              (s.frames ++ [(pg, decide (Op.R = Op.W))]).length
            simp only [List.length_append, List.length_cons, List.length_nil]
            omega
          · intro pv hpv
            rcases List.mem_append.mp hpv with h | h
            · have := hvals pv h
              omega
            · simp only [List.mem_singleton] at h
              subst h
              omega
          · show ((s.frames ++ [(pg, decide (Op.R = Op.W))]).map Prod.fst).Pairwise _
            rw [List.map_append, List.pairwise_append]
            refine ⟨?_, by simp, ?_⟩
            · refine pairwise_imp_mem ?_ hpair
              intro a ha b hb hab
              have hane : a ≠ pg := fun h => hninL (h ▸ ha)
              have hbne : b ≠ pg := fun h => hninL (h ▸ hb)
              rw [valOf, valOf, hKapp a hane, hKapp b hbne]
              exact hab
            · intro a ha b hb
              simp only [List.map_cons, List.map_nil, List.mem_singleton] at hb
              rw [hb]
              have hane : a ≠ pg := fun h => hninL (h ▸ ha)
              rw [valOf, valOf, hKapp a hane, hKapp0]
              have := hvalsL a ha
              rw [valOf] at this
              show (lookupKey a last).getD 0 < (some t).getD 0
              simpa using this
      · -- full: evict the LRU head on both sides
        have hcle : s.capacity ≤ s.frames.length := by
          rw [hc, ← hlen]
          omega
        cases hfr : s.frames with
        | nil =>
            exfalso
            rw [hfr] at hcle
            simp at hcle
            omega
        | cons hd0 rest =>
            obtain ⟨q0, d0⟩ := hd0
            rw [hfr] at hmem hpair hndL hlen hfrN hcle hninL hvalsL
            simp only [List.map_cons] at hmem hpair hndL hninL hvalsL
            have hq0lk : (lookupKey q0 last).isSome :=
              (hmem q0).mp (List.mem_cons_self _ _)
            have hpgq0 : pg ≠ q0 := by
              intro h
              subst h
              rw [hlk] at hq0lk
              simp at hq0lk
            have hq0rest : q0 ∉ rest.map Prod.fst := (List.nodup_cons.mp hndL).1
            have hndrest : (rest.map Prod.fst).Nodup := (List.nodup_cons.mp hndL).2
            have hpmin : pyMin last = some (q0, valOf last q0) :=
              pyMin_head last q0 (rest.map Prod.fst) hmem hndK hpair
            have hE0 : lookupKey q0 (eraseKey q0 last) = none :=
              lookupKey_eraseKey_self_of_nodup q0 last hndK
            have hEne : ∀ q : ℕ, q ≠ q0 →
                lookupKey q (eraseKey q0 last) = lookupKey q last :=
              fun q hq => lookupKey_eraseKey_ne hq last
            have hKapp : ∀ q : ℕ, q ≠ pg → q ≠ q0 →
                lookupKey q (eraseKey q0 last ++ [(pg, t)]) = lookupKey q last := by
              intro q hq hq0
              rw [lookupKey_append, hEne q hq0]
              cases he : lookupKey q last with
              | some w => rfl
              | none => simp [lookupKey, Ne.symm hq]
            have hKapp0 : lookupKey pg (eraseKey q0 last ++ [(pg, t)]) = some t := by
              rw [lookupKey_append, hEne pg hpgq0, hlk]
              simp [lookupKey]
            have hKappq0 : lookupKey q0 (eraseKey q0 last ++ [(pg, t)]) = none := by
              rw [lookupKey_append, hE0]
              simp [lookupKey, hpgq0]
            have hsubE : List.Sublist ((eraseKey q0 last).map Prod.fst)
                (last.map Prod.fst) := (eraseKey_sublist q0 last).map Prod.fst
            have hndE : ((eraseKey q0 last).map Prod.fst).Nodup := hndK.sublist hsubE
            refine ⟨{ s with
                events := s.events + 1
                disk_reads := s.disk_reads + 1
                disk_writes := s.disk_writes + (if d0 then 1 else 0)
                frames := rest ++ [(pg, decide (Op.R = Op.W))] },
              eraseKey q0 last ++ [(pg, t)],
              ⟨st.references + 1, st.hits, st.misses + 1, st.evictions + 1⟩,
              ?_, ?_, ?_⟩
            · simp only [Memsim.LRUSim.access, hpg, hfrN, hfr]
              rw [if_pos hcle]
            · intro rest'
              simp only [lruGo, hlk, Option.isSome_none, Bool.false_eq_true, if_false,
                if_neg hlt, hpmin]
            · refine ⟨hc, ?_, ?_, ?_, ?_, ?_, ?_, by
                show s.disk_reads + 1 = st.misses + 1
                omega, by
                show s.events + 1 = st.references + 1
                omega⟩
              · show ((rest ++ [(pg, decide (Op.R = Op.W))]).map Prod.fst).Nodup
                rw [List.map_append, List.nodup_append]
                refine ⟨hndrest, by simp, ?_⟩
                intro a ha hb
                simp only [List.map_cons, List.map_nil, List.mem_singleton] at hb
                exact hninL (hb ▸ List.mem_cons_of_mem _ ha)
              · show (((eraseKey q0 last) ++ [(pg, t)]).map Prod.fst).Nodup
                rw [List.map_append, List.nodup_append]
                refine ⟨hndE, by simp, ?_⟩
                intro a ha hb
                simp only [List.map_cons, List.map_nil, List.mem_singleton] at hb
                have hsome := (lookupKey_isSome_iff a (eraseKey q0 last)).mpr ha
                rw [hb, hEne pg hpgq0, hlk] at hsome
                simp at hsome
              · intro q
                show q ∈ (rest ++ [(pg, decide (Op.R = Op.W))]).map Prod.fst ↔ _
                rw [List.map_append]
                simp only [List.map_cons, List.map_nil, List.mem_append,
                  List.mem_singleton]
                by_cases hq : q = pg
                · subst hq
                  rw [hKapp0]
                  simp
                · by_cases hq0 : q = q0
                  · subst hq0
                    rw [hKappq0]
                    simp only [Option.isSome_none, Bool.false_eq_true, iff_false]
                    rintro (h | h)
                    · exact hq0rest h
                    · exact hq h
                  · rw [hKapp q hq hq0]
                    constructor
                    · rintro (h | h)
                      · exact (hmem q).mp (List.mem_cons_of_mem _ h)
                      · exact absurd h hq
                    · intro h
                      have := (hmem q).mpr h
                      rcases List.mem_cons.mp this with h1 | h1
                      · exact absurd h1 hq0
                      · exact Or.inl h1
              · show ((eraseKey q0 last) ++ [(pg, t)]).length =
                  (rest ++ [(pg, decide (Op.R = Op.W))]).length
                have he := length_eraseKey_of_isSome q0 last hq0lk
                simp only [List.length_cons] at hlen
                simp only [List.length_append, List.length_cons, List.length_nil]
                omega
              · intro pv hpv
                rcases List.mem_append.mp hpv with h | h
                · have := hvals pv ((eraseKey_sublist q0 last).subset h)
                  omega
                · simp only [List.mem_singleton] at h
                  subst h
                  omega
              · show ((rest ++ [(pg, decide (Op.R = Op.W))]).map Prod.fst).Pairwise _
                rw [List.map_append, List.pairwise_append]
                refine ⟨?_, by simp, ?_⟩
                · have hpt : (rest.map Prod.fst).Pairwise
                      (fun p q => valOf last p < valOf last q) :=
                    (List.pairwise_cons.mp hpair).2
                  refine pairwise_imp_mem ?_ hpt
                  intro a ha b hb hab
                  have hane : a ≠ pg := fun h => hninL (h ▸ List.mem_cons_of_mem _ ha)
                  have hbne : b ≠ pg := fun h => hninL (h ▸ List.mem_cons_of_mem _ hb)
                  have hane0 : a ≠ q0 := fun h => hq0rest (h ▸ ha)
                  have hbne0 : b ≠ q0 := fun h => hq0rest (h ▸ hb)
                  rw [valOf, valOf, hKapp a hane hane0, hKapp b hbne hbne0]
                  exact hab
                · intro a ha b hb
                  simp only [List.map_cons, List.map_nil, List.mem_singleton] at hb
                  rw [hb]
                  have hane : a ≠ pg := fun h => hninL (h ▸ List.mem_cons_of_mem _ ha)
                  have hane0 : a ≠ q0 := fun h => hq0rest (h ▸ ha)
                  rw [valOf, valOf, hKapp a hane hane0, hKapp0]
                  have := hvalsL a (List.mem_cons_of_mem _ ha)
                  rw [valOf] at this
                  show (lookupKey a last).getD 0 < (some t).getD 0
                  simpa using this

end Prac2

namespace Prac2

open Memsim

/-- The synchronized run: related states stay related along any page list,
so the two LRU engines agree on event and fault counters. -/
theorem lru_sync_run (cap : ℕ) (hcap : 0 < cap) :
    ∀ (ps : List ℕ) (s : Memsim.LRUSim) (last : List (ℕ × ℕ)) (st : Stats) (t : ℕ),
      LruRel cap s last st t →
      ∃ s' last' st', s.runFrom (Memsim.readsTrace ps) = some s' ∧
        lruGo cap last st t ps = some (last', st') ∧
        s'.disk_reads = st'.misses ∧ s'.events = st'.references := by
  intro ps
  induction ps with
  | nil =>
      intro s last st t hrel
      exact ⟨s, last, st, rfl, rfl, hrel.2.2.2.2.2.2.2.1, hrel.2.2.2.2.2.2.2.2⟩
  | cons pg rest ih =>
      intro s last st t hrel
      obtain ⟨s1, last1, st1, hacc, hgo, hrel1⟩ :=
        lru_sync_step cap hcap s last st t pg hrel
      obtain ⟨s', last', st', hrun, hgo', h1, h2⟩ := ih s1 last1 st1 (t + 1) hrel1
      refine ⟨s', last', st', ?_, ?_, h1, h2⟩
      · show Memsim.LRUSim.runFrom s (Memsim.readsTrace (pg :: rest)) = some s'
        simp only [Memsim.readsTrace, List.map_cons] at hrun ⊢
        simp only [Memsim.LRUSim.runFrom, hacc]
        exact hrun
      · rw [hgo rest]
        exact hgo'

end Prac2

/-- **C10.** The two LRU implementations are equivalent on counters: for
every positive capacity and every page sequence, the OrderedDict LRU of
`memsim.py` (fed each page as read access to byte address
`page * PAGE_SIZE`) and the timestamp-minimum LRU of `prac2/memsim.py`
process the same number of events (`events` = `references` = trace length)
and fault the same number of times (`disk_reads` = `misses`). -/
theorem lru_implementations_counter_equivalent (cap : ℕ) (hcap : 0 < cap)
    (ps : List ℕ) :
    ∃ s stats, (Memsim.LRUSim.init cap).runFrom (Memsim.readsTrace ps) = some s ∧
      Prac2.simulate_lru ps cap = some stats ∧
      s.events = stats.references ∧ s.disk_reads = stats.misses ∧
      s.events = ps.length := by
  have hrel0 : Prac2.LruRel cap (Memsim.LRUSim.init cap) [] Prac2.Stats.init 0 := by
    refine ⟨rfl, ?_, ?_, ?_, rfl, ?_, ?_, rfl, rfl⟩
    · simp [Memsim.LRUSim.init]
    · simp
    · intro p
      simp [Memsim.LRUSim.init, Memsim.lookupKey]
    · intro pv hpv
      cases hpv
    · simp [Memsim.LRUSim.init]
  obtain ⟨s', last', st', hrun, hgo, h1, h2⟩ :=
    Prac2.lru_sync_run cap hcap ps (Memsim.LRUSim.init cap) [] Prac2.Stats.init 0 hrel0
  obtain ⟨l2, st2, hgo2, hs1, hs2, -⟩ :=
    Prac2.lruGo_stats cap hcap ps [] Prac2.Stats.init 0
  rw [hgo] at hgo2
  simp only [Option.some.injEq, Prod.mk.injEq] at hgo2
  obtain ⟨-, hst⟩ := hgo2
  refine ⟨s', st', hrun, ?_, h2, h1, ?_⟩
  · simp only [Prac2.simulate_lru, hgo]
    rfl
  · rw [h2, hst]
    simp [Prac2.Stats.init] at hs2
    omega

/-- Witness for `lru_implementations_counter_equivalent` at capacity 3 with
the page sequence `[1, 2, 3, 1, 4]`. -/
theorem lru_implementations_counter_equivalent_witness :
    0 < 3 ∧
    (∃ s stats,
      (Memsim.LRUSim.init 3).runFrom (Memsim.readsTrace [1, 2, 3, 1, 4]) = some s ∧
      Prac2.simulate_lru [1, 2, 3, 1, 4] 3 = some stats ∧
      s.events = stats.references ∧ s.disk_reads = stats.misses ∧
      s.events = [1, 2, 3, 1, 4].length) :=
  ⟨by decide, lru_implementations_counter_equivalent 3 (by decide) [1, 2, 3, 1, 4]⟩
